import Mathlib

/-!
Verification development for the katana in-memory graph topology engine
(src/libgalois): the CSR `GraphTopology`, its derived shuffled / sorted /
type-aware views, the binary on-disk format, and the free functions
`CreateSymmetricGraph`, `CreateTransposeGraphTopology`, `SortNodesByDegree`.

The C++ arrays `adj_indices_` / `dests_` are modelled as `List Nat`.
Parallel `do_all` loops are modelled by their sequential execution order
(ascending node id, ascending edge id within a node); the only
concurrent-write hazard in the source is the atomic fetch-and-add scatter
cursor, whose final per-node region contents are the values written to that
region in program order, which is exactly what the sequential fold computes.
-/

namespace Katana

/-- CSR topology: `adj_indices[n]` is one past the last edge of node `n`
(`GraphTopology` in GraphTopology.h); `dests[e]` is the destination of edge `e`. -/
structure GraphTopology where
  adj_indices : List Nat
  dests : List Nat
deriving DecidableEq, Repr

/-- `GraphTopology::num_nodes()`. -/
def numNodes (t : GraphTopology) : Nat := t.adj_indices.length

/-- `GraphTopology::num_edges()`. -/
def numEdges (t : GraphTopology) : Nat := t.dests.length

/-- Start of node `n`'s edge range: `node > 0 ? adj_indices_[node - 1] : 0`. -/
def edgeBegin (t : GraphTopology) (n : Nat) : Nat :=
  if n = 0 then 0 else t.adj_indices.getD (n - 1) 0

/-- End of node `n`'s edge range: `adj_indices_[node]`. -/
def edgeEnd (t : GraphTopology) (n : Nat) : Nat := t.adj_indices.getD n 0

/-- `GraphTopology::degree(node)` = size of `edges(node)`. -/
def degree (t : GraphTopology) (n : Nat) : Nat := edgeEnd t n - edgeBegin t n

/-- `GraphTopology::edges(node)`: the half-open id range `[edgeBegin, edgeEnd)`. -/
def edgesOf (t : GraphTopology) (n : Nat) : List Nat :=
  List.range' (edgeBegin t n) (degree t n)

/-- `GraphTopology::edge_dest(edge_id)` = `dests_[edge_id]`. -/
def edge_dest (t : GraphTopology) (e : Nat) : Nat := t.dests.getD e 0

/-- The destinations of node `n`'s out-edges, in edge-id order. -/
def outDests (t : GraphTopology) (n : Nat) : List Nat :=
  (edgesOf t n).map (edge_dest t)

/-- All (source, destination) pairs of the graph, grouped by source node. -/
def edgeList (t : GraphTopology) : List (Nat × Nat) :=
  (List.range (numNodes t)).flatMap (fun n => (outDests t n).map (fun d => (n, d)))

/-- `GraphTopology::Equals(that)`: node/edge counts and both arrays element-wise. -/
def Equals (a b : GraphTopology) : Bool :=
  numNodes a == numNodes b && numEdges a == numEdges b &&
    a.adj_indices == b.adj_indices && a.dests == b.dests

/-- The CSR invariants (spec section 3): the adjacency index is a
non-decreasing prefix sum ending at `num_edges`, and every destination is a
valid node id. -/
def validCSR (t : GraphTopology) : Bool :=
  ((List.range (numNodes t)).all fun n => decide (edgeBegin t n ≤ edgeEnd t n)) &&
    numEdges t == t.adj_indices.getD (numNodes t - 1) 0 &&
    t.dests.all (fun d => decide (d < numNodes t))

theorem validCSR_begin_le_end {t : GraphTopology} (h : validCSR t = true)
    {n : Nat} (hn : n < numNodes t) : edgeBegin t n ≤ edgeEnd t n := by
  simp only [validCSR, Bool.and_eq_true, List.all_eq_true] at h
  exact of_decide_eq_true (h.1.1 n (List.mem_range.2 hn))

theorem validCSR_last {t : GraphTopology} (h : validCSR t = true) :
    numEdges t = t.adj_indices.getD (numNodes t - 1) 0 := by
  simp only [validCSR, Bool.and_eq_true, List.all_eq_true] at h
  exact beq_iff_eq.mp h.1.2

theorem validCSR_dest_lt {t : GraphTopology} (h : validCSR t = true)
    {e : Nat} (he : e < numEdges t) : edge_dest t e < numNodes t := by
  simp only [validCSR, Bool.and_eq_true, List.all_eq_true] at h
  have hmem : t.dests.get ⟨e, he⟩ ∈ t.dests := List.get_mem t.dests e he
  have := of_decide_eq_true (h.2 _ hmem)
  have hget : edge_dest t e = t.dests.get ⟨e, he⟩ := by
    simp [edge_dest, List.getD_eq_getElem?_getD, List.getElem?_eq_getElem he]
  rw [hget]
  exact this

theorem edgeEnd_eq_edgeBegin_succ (t : GraphTopology) (n : Nat) :
    edgeEnd t n = edgeBegin t (n + 1) := by
  simp [edgeEnd, edgeBegin]

theorem edgeEnd_mono {t : GraphTopology} (h : validCSR t = true) :
    ∀ {i j : Nat}, i ≤ j → j < numNodes t → edgeEnd t i ≤ edgeEnd t j := by
  intro i j hij hj
  induction j with
  | zero => simp_all
  | succ k ih =>
    rcases Nat.eq_or_lt_of_le hij with rfl | hlt
    · exact Nat.le_refl _
    · have hk : k < numNodes t := Nat.lt_of_succ_lt hj
      have h1 : edgeEnd t i ≤ edgeEnd t k := ih (Nat.lt_succ_iff.1 hlt) hk
      have h2 : edgeEnd t k ≤ edgeEnd t (k + 1) := by
        rw [edgeEnd_eq_edgeBegin_succ]
        exact validCSR_begin_le_end h hj
      exact Nat.le_trans h1 h2

theorem edgeEnd_le_numEdges {t : GraphTopology} (h : validCSR t = true)
    {n : Nat} (hn : n < numNodes t) : edgeEnd t n ≤ numEdges t := by
  have hlast : numEdges t = edgeEnd t (numNodes t - 1) := validCSR_last h
  have : edgeEnd t n ≤ edgeEnd t (numNodes t - 1) := by
    apply edgeEnd_mono h (Nat.le_sub_one_of_lt hn)
    omega
  omega

theorem edgeBegin_le_numEdges {t : GraphTopology} (h : validCSR t = true)
    {n : Nat} (hn : n < numNodes t) : edgeBegin t n ≤ numEdges t :=
  Nat.le_trans (validCSR_begin_le_end h hn) (edgeEnd_le_numEdges h hn)

/-- The per-node edge ranges tile `[0, num_edges)` in order: concatenating
`edges(n)` over all nodes gives exactly the edge-id range (spec section 8,
first bullet). -/
theorem edges_partition {t : GraphTopology} (h : validCSR t = true) :
    (List.range (numNodes t)).flatMap (edgesOf t) = List.range (numEdges t) := by
  have aux : ∀ k, k ≤ numNodes t →
      (List.range k).flatMap (edgesOf t) = List.range' 0 (edgeBegin t k) := by
    intro k
    induction k with
    | zero => simp [edgeBegin]
    | succ m ih =>
      intro hm
      have hmN : m < numNodes t := hm
      rw [List.range_succ, List.flatMap_append, ih (Nat.le_of_lt hmN)]
      simp only [List.flatMap_cons, List.flatMap_nil, List.append_nil]
      rw [edgesOf]
      have hbe : edgeBegin t m ≤ edgeEnd t m := validCSR_begin_le_end h hmN
      have harr : List.range' 0 (edgeBegin t m) 1 ++
          List.range' (0 + 1 * edgeBegin t m) (degree t m) 1 =
          List.range' 0 (degree t m + edgeBegin t m) 1 :=
        List.range'_append 0 (edgeBegin t m) (degree t m) 1
      simp only [Nat.zero_add, Nat.one_mul] at harr
      rw [harr]
      have : degree t m + edgeBegin t m = edgeBegin t (m + 1) := by
        rw [degree, ← edgeEnd_eq_edgeBegin_succ]
        omega
      rw [this]
  have := aux (numNodes t) (Nat.le_refl _)
  rw [this]
  have hE : edgeBegin t (numNodes t) = numEdges t := by
    cases hN : numNodes t with
    | zero =>
      have hlast := validCSR_last h
      simp [hN, edgeBegin] at hlast ⊢
      simp [numNodes] at hN
      simp [hN] at hlast
      omega
    | succ m =>
      have hlast := validCSR_last h
      simp [edgeBegin, hN] at hlast ⊢
      omega
  rw [hE, List.range_eq_range']

theorem getD_of_lt {α : Type} (l : List α) (d : α) {i : Nat} (h : i < l.length) :
    l.getD i d = l.get ⟨i, h⟩ := by
  simp [List.getD_eq_getElem?_getD, List.getElem?_eq_getElem h]

theorem map_getD_range {α : Type} (l : List α) (d : α) :
    (List.range l.length).map (fun i => l.getD i d) = l := by
  apply List.ext_get
  · simp
  · intro i h1 h2
    simp only [List.get_eq_getElem, List.getElem_map, List.getElem_range]
    rw [getD_of_lt l d h2]
    rfl

/-- Mapping `edge_dest` over the tiled edge ranges recovers `dests`. -/
theorem outDests_flatten {t : GraphTopology} (h : validCSR t = true) :
    (List.range (numNodes t)).flatMap (outDests t) = t.dests := by
  have : (List.range (numNodes t)).flatMap (outDests t) =
      ((List.range (numNodes t)).flatMap (edgesOf t)).map (edge_dest t) := by
    rw [List.map_flatMap]
    rfl
  rw [this, edges_partition h]
  exact map_getD_range t.dests 0

theorem length_edgesOf (t : GraphTopology) (n : Nat) :
    (edgesOf t n).length = degree t n := by simp [edgesOf]

theorem length_outDests (t : GraphTopology) (n : Nat) :
    (outDests t n).length = degree t n := by simp [outDests, length_edgesOf]

theorem sum_degrees {t : GraphTopology} (h : validCSR t = true) :
    ((List.range (numNodes t)).map (degree t)).sum = numEdges t := by
  have := congrArg List.length (edges_partition h)
  simp only [List.length_flatMap, List.length_range] at this
  rw [← this]
  congr 1
  apply List.map_congr_left
  intro n _
  simp [Function.comp, length_edgesOf]

theorem getD_set_self {l : List Nat} {i : Nat} (h : i < l.length) (a d : Nat) :
    (l.set i a).getD i d = a := by
  rw [List.getD_eq_getElem?_getD, List.getElem?_set_self h]
  rfl

theorem getD_set_ne {l : List Nat} {i j : Nat} (h : i ≠ j) (a d : Nat) :
    (l.set i a).getD j d = l.getD j d := by
  rw [List.getD_eq_getElem?_getD, List.getElem?_set_ne h, ← List.getD_eq_getElem?_getD]

/-- Start offset of slot `n` given per-slot counts: the exclusive prefix sum. -/
def startOf (counts : List Nat) (n : Nat) : Nat := (counts.take n).sum

/-- `katana::ParallelSTL::partial_sum` over a counts array, in place:
entry `n` of the result is the inclusive prefix sum through `n`. -/
def prefixSum (l : List Nat) : List Nat :=
  (List.range l.length).map (fun n => (l.take (n + 1)).sum)

theorem length_prefixSum (l : List Nat) : (prefixSum l).length = l.length := by
  simp [prefixSum]

theorem prefixSum_getD {l : List Nat} {n : Nat} (h : n < l.length) :
    (prefixSum l).getD n 0 = startOf l (n + 1) := by
  have : n < (prefixSum l).length := by rw [length_prefixSum]; exact h
  rw [getD_of_lt _ _ this]
  simp [prefixSum, startOf]

theorem startOf_zero (counts : List Nat) : startOf counts 0 = 0 := rfl

theorem startOf_succ {counts : List Nat} {n : Nat} (h : n < counts.length) :
    startOf counts (n + 1) = startOf counts n + counts.getD n 0 := by
  simp only [startOf]
  rw [List.sum_take_succ counts n h, getD_of_lt _ _ h]
  rfl

theorem startOf_mono (counts : List Nat) {i j : Nat} (h : i ≤ j) :
    startOf counts i ≤ startOf counts j := by
  induction j with
  | zero => simp_all [startOf]
  | succ k ih =>
    rcases Nat.eq_or_lt_of_le h with rfl | hlt
    · exact Nat.le_refl _
    · have h1 := ih (Nat.lt_succ_iff.1 hlt)
      rcases Nat.lt_or_ge k counts.length with hk | hk
      · rw [startOf_succ hk]; omega
      · have : startOf counts (k + 1) = startOf counts k := by
          simp only [startOf]
          rw [List.take_of_length_le hk, List.take_of_length_le (by omega)]
        omega

theorem startOf_length (counts : List Nat) : startOf counts counts.length = counts.sum := by
  simp [startOf, List.take_of_length_le (Nat.le_refl _)]

theorem startOf_le_sum (counts : List Nat) (n : Nat) : startOf counts n ≤ counts.sum := by
  rcases Nat.lt_or_ge n (counts.length + 1) with h | h
  · rw [← startOf_length counts]
    exact startOf_mono counts (by omega)
  · simp only [startOf]
    rw [List.take_of_length_le (by omega)]

/-- Find the slot whose region `[startOf w, startOf (w+1))` holds a position. -/
theorem exists_slot {counts : List Nat} {pos : Nat} (h : pos < counts.sum) :
    ∃ w, w < counts.length ∧ startOf counts w ≤ pos ∧ pos < startOf counts (w + 1) := by
  induction counts generalizing pos with
  | nil => simp at h
  | cons c cs ih =>
    rcases Nat.lt_or_ge pos c with hc | hc
    · exact ⟨0, by simp, by simp [startOf], by simpa [startOf] using hc⟩
    · have h' : pos - c < cs.sum := by simp at h; omega
      obtain ⟨w, hw, hlo, hhi⟩ := ih h'
      refine ⟨w + 1, by simpa using hw, ?_, ?_⟩
      · simp only [startOf, List.take_succ_cons, List.sum_cons] at hlo ⊢
        omega
      · simp only [startOf, List.take_succ_cons, List.sum_cons] at hhi ⊢
        omega

/-- The atomic counting pass (`__sync_add_and_fetch(&(out_indices[dest]), 1)`
for every edge): bump one slot per value, starting from all zeros. -/
def countsOf (vals : List Nat) (numSlots : Nat) : List Nat :=
  vals.foldl (fun cs d => cs.set d (cs.getD d 0 + 1)) (List.replicate numSlots 0)

theorem countsOf_foldl_getD (vals : List Nat) (cs : List Nat) {w : Nat}
    (hw : w < cs.length) :
    (vals.foldl (fun cs d => cs.set d (cs.getD d 0 + 1)) cs).getD w 0 =
      cs.getD w 0 + vals.count w := by
  induction vals generalizing cs with
  | nil => simp
  | cons v rest ih =>
    simp only [List.foldl_cons]
    rw [ih _ (by rw [List.length_set]; exact hw)]
    rcases eq_or_ne v w with rfl | hne
    · rw [getD_set_self hw, List.count_cons_self]
      omega
    · rw [getD_set_ne hne, List.count_cons_of_ne (by omega)]

theorem length_countsOf (vals : List Nat) (numSlots : Nat) :
    (countsOf vals numSlots).length = numSlots := by
  have aux : ∀ (l : List Nat) (cs : List Nat),
      (l.foldl (fun cs d => cs.set d (cs.getD d 0 + 1)) cs).length = cs.length := by
    intro l
    induction l with
    | nil => intro cs; rfl
    | cons v rest ih =>
      intro cs
      rw [List.foldl_cons, ih, List.length_set]
  rw [countsOf, aux, List.length_replicate]

theorem countsOf_getD (vals : List Nat) {numSlots w : Nat} (hw : w < numSlots) :
    (countsOf vals numSlots).getD w 0 = vals.count w := by
  rw [countsOf, countsOf_foldl_getD vals _ (by simpa using hw)]
  simp [List.getD_eq_getElem?_getD, List.getElem?_replicate, hw]

/-- The per-slot write cursors (`out_dests_offset`): slot `n` starts at the
exclusive prefix sum (`out_dests_offset[0] = 0; out_dests_offset[n] =
out_indices[n-1]`). -/
def startsList (counts : List Nat) : List Nat :=
  (List.range counts.length).map (startOf counts)

theorem startsList_getD {counts : List Nat} {w : Nat} (hw : w < counts.length) :
    (startsList counts).getD w 0 = startOf counts w := by
  have : w < (startsList counts).length := by simp [startsList, hw]
  rw [getD_of_lt _ _ this]
  simp [startsList]

/-- The scatter pass shared by transpose / symmetrize / node relabeling:
for each (target-slot, value) write in program order, store the value at the
slot's cursor (`__sync_fetch_and_add(&(out_dests_offset[w]), 1)`) and advance
the cursor. Returns (final cursors, final array). -/
def scatterGo : List (Nat × Nat) → List Nat → List Nat → List Nat × List Nat
  | [], cur, out => (cur, out)
  | (w, v) :: rest, cur, out =>
      scatterGo rest (cur.set w (cur.getD w 0 + 1)) (out.set (cur.getD w 0) v)

theorem scatterGo_length (ws : List (Nat × Nat)) (cur out : List Nat) :
    (scatterGo ws cur out).2.length = out.length := by
  induction ws generalizing cur out with
  | nil => rfl
  | cons p rest ih =>
    obtain ⟨w, v⟩ := p
    simp [scatterGo, ih, List.length_set]

/-- Counting-sort correctness of the scatter pass: if each slot's cursor has
exactly as much room left before the next slot's region as it has pending
writes, then after the scatter, slot `w`'s region holds exactly the values
written to `w`, in program order, and untouched positions keep their value. -/
theorem scatterGo_spec (counts : List Nat) (ws : List (Nat × Nat))
    (cur out : List Nat)
    (hcurlen : cur.length = counts.length)
    (hcur : ∀ w, w < counts.length → startOf counts w ≤ cur.getD w 0 ∧
        cur.getD w 0 + (ws.filter (fun p => p.1 = w)).length = startOf counts (w + 1))
    (houtlen : out.length = counts.sum)
    (htargets : ∀ p ∈ ws, p.1 < counts.length) :
    (∀ w, w < counts.length → ∀ k, k < (ws.filter (fun p => p.1 = w)).length →
        (scatterGo ws cur out).2.getD (cur.getD w 0 + k) 0 =
          ((ws.filter (fun p => p.1 = w)).map Prod.snd).getD k 0) ∧
      (∀ pos, (∀ w, w < counts.length →
            ¬(cur.getD w 0 ≤ pos ∧
              pos < cur.getD w 0 + (ws.filter (fun p => p.1 = w)).length)) →
          (scatterGo ws cur out).2.getD pos 0 = out.getD pos 0) := by
  induction ws generalizing cur out with
  | nil =>
    refine ⟨fun w hw k hk => by simp at hk, fun pos _ => rfl⟩
  | cons p rest ih =>
    obtain ⟨w0, v⟩ := p
    have hw0 : w0 < counts.length := htargets (w0, v) (List.mem_cons_self _ _)
    have hfil0 : ((w0, v) :: rest).filter (fun p => p.1 = w0) =
        (w0, v) :: rest.filter (fun p => p.1 = w0) := by
      simp [List.filter_cons]
    have hfilne : ∀ w, w ≠ w0 → ((w0, v) :: rest).filter (fun p => p.1 = w) =
        rest.filter (fun p => p.1 = w) := by
      intro w hw
      simp only [List.filter_cons, decide_eq_true_eq]
      rw [if_neg (fun h => hw h.symm)]
    set pos0 := cur.getD w0 0 with hpos0
    have hc0 := hcur w0 hw0
    have hroom : pos0 < startOf counts (w0 + 1) := by
      rw [hfil0] at hc0
      simp only [List.length_cons] at hc0
      omega
    have hpos0lt : pos0 < out.length := by
      rw [houtlen]
      exact Nat.lt_of_lt_of_le hroom (startOf_le_sum counts (w0 + 1))
    -- new state after this write
    set cur' := cur.set w0 (pos0 + 1) with hcur'
    set out' := out.set pos0 v with hout'
    have hcur'_w0 : cur'.getD w0 0 = pos0 + 1 := by
      rw [hcur']
      exact getD_set_self (by rw [hcurlen]; exact hw0) _ _
    have hcur'_ne : ∀ w, w ≠ w0 → cur'.getD w 0 = cur.getD w 0 := by
      intro w hw
      rw [hcur']
      exact getD_set_ne (fun h => hw h.symm) _ _
    have hcur2 : ∀ w, w < counts.length → startOf counts w ≤ cur'.getD w 0 ∧
        cur'.getD w 0 + (rest.filter (fun p => p.1 = w)).length =
          startOf counts (w + 1) := by
      intro w hw
      rcases eq_or_ne w w0 with rfl | hne
      · rw [hcur'_w0]
        have h2 := hc0.2
        rw [hfil0] at h2
        simp only [List.length_cons] at h2
        exact ⟨Nat.le_trans hc0.1 (Nat.le_succ _), by omega⟩
      · rw [hcur'_ne w hne]
        have := hcur w hw
        rw [hfilne w hne] at this
        exact this
    have houtlen' : out'.length = counts.sum := by
      rw [hout', List.length_set, houtlen]
    have htargets' : ∀ p ∈ rest, p.1 < counts.length := fun p hp =>
      htargets p (List.mem_cons_of_mem _ hp)
    have hcurlen' : cur'.length = counts.length := by
      rw [hcur', List.length_set, hcurlen]
    obtain ⟨ihA, ihB⟩ := ih cur' out' hcurlen' hcur2 houtlen' htargets'
    -- the regions of distinct slots are disjoint
    have hdisj : ∀ w, w < counts.length → w ≠ w0 →
        ¬(cur'.getD w 0 ≤ pos0 ∧
          pos0 < cur'.getD w 0 + (rest.filter (fun p => p.1 = w)).length) := by
      intro w hw hne hcontra
      have hc := hcur2 w hw
      have hin : startOf counts w ≤ pos0 ∧ pos0 < startOf counts (w + 1) := by
        constructor
        · exact Nat.le_trans hc.1 hcontra.1
        · omega
      have hin0 : startOf counts w0 ≤ pos0 ∧ pos0 < startOf counts (w0 + 1) :=
        ⟨hc0.1, hroom⟩
      rcases Nat.lt_or_ge w w0 with hlt | hge
      · have := startOf_mono counts (show w + 1 ≤ w0 by omega)
        omega
      · have := startOf_mono counts (show w0 + 1 ≤ w by omega)
        omega
    have hnotin0 : ∀ w, w < counts.length →
        ¬(cur'.getD w 0 ≤ pos0 ∧
          pos0 < cur'.getD w 0 + (rest.filter (fun p => p.1 = w)).length) := by
      intro w hw
      rcases eq_or_ne w w0 with rfl | hne
      · rw [hcur'_w0]
        omega
      · exact hdisj w hw hne
    have hfinal0 : (scatterGo rest cur' out').2.getD pos0 0 = v := by
      rw [ihB pos0 hnotin0, hout', getD_set_self hpos0lt]
    constructor
    · intro w hw k hk
      show (scatterGo rest cur' out').2.getD (cur.getD w 0 + k) 0 = _
      rcases eq_or_ne w w0 with rfl | hne
      · rw [hfil0] at hk ⊢
        simp only [List.length_cons] at hk
        cases k with
        | zero =>
          rw [Nat.add_zero, ← hpos0, hfinal0]
          simp
        | succ k' =>
          have hih := ihA w hw0 k' (by omega)
          rw [hcur'_w0] at hih
          have harith : cur.getD w 0 + (k' + 1) = pos0 + 1 + k' := by omega
          rw [harith, hih]
          simp
      · rw [hfilne w hne] at hk ⊢
        have := ihA w hw k hk
        rw [hcur'_ne w hne] at this
        exact this
    · intro pos hpos
      show (scatterGo rest cur' out').2.getD pos 0 = _
      have hpos' : ∀ w, w < counts.length →
          ¬(cur'.getD w 0 ≤ pos ∧
            pos < cur'.getD w 0 + (rest.filter (fun p => p.1 = w)).length) := by
        intro w hw
        have horig := hpos w hw
        rcases eq_or_ne w w0 with rfl | hne
        · rw [hcur'_w0]
          rw [hfil0] at horig
          simp only [List.length_cons] at horig
          omega
        · rw [hcur'_ne w hne]
          rw [hfilne w hne] at horig
          exact horig
      rw [ihB pos hpos']
      rw [hout']
      apply getD_set_ne
      intro hcontra
      have horig0 := hpos w0 hw0
      rw [hfil0] at horig0
      simp only [List.length_cons] at horig0
      omega

theorem scatter_region (counts : List Nat) (ws : List (Nat × Nat)) (out0 : List Nat)
    (hlen : out0.length = counts.sum)
    (hcounts : ∀ w, w < counts.length →
      (ws.filter (fun p => p.1 = w)).length = counts.getD w 0)
    (htargets : ∀ p ∈ ws, p.1 < counts.length) :
    ∀ w, w < counts.length → ∀ k, k < counts.getD w 0 →
      (scatterGo ws (startsList counts) out0).2.getD (startOf counts w + k) 0 =
        ((ws.filter (fun p => p.1 = w)).map Prod.snd).getD k 0 := by
  intro w hw k hk
  have hcurlen : (startsList counts).length = counts.length := by simp [startsList]
  have hcur : ∀ w, w < counts.length → startOf counts w ≤ (startsList counts).getD w 0 ∧
      (startsList counts).getD w 0 + (ws.filter (fun p => p.1 = w)).length =
        startOf counts (w + 1) := by
    intro w hw
    rw [startsList_getD hw, hcounts w hw, startOf_succ hw]
    exact ⟨Nat.le_refl _, rfl⟩
  obtain ⟨hA, _⟩ := scatterGo_spec counts ws _ out0 hcurlen hcur hlen htargets
  have := hA w hw k (by rw [hcounts w hw]; exact hk)
  rw [startsList_getD hw] at this
  exact this

theorem sum_map_add (l : List Nat) (f g : Nat → Nat) :
    (l.map (fun w => f w + g w)).sum = (l.map f).sum + (l.map g).sum := by
  induction l with
  | nil => rfl
  | cons x xs ih =>
    simp only [List.map_cons, List.sum_cons, ih]
    omega

theorem sum_map_range_single (N : Nat) (f : Nat → Nat) (a : Nat) (ha : a < N)
    (hz : ∀ w, w < N → w ≠ a → f w = 0) :
    ((List.range N).map f).sum = f a := by
  induction N with
  | zero => omega
  | succ m ih =>
    rw [List.range_succ, List.map_append, List.sum_append]
    rcases eq_or_ne a m with rfl | hne
    · have hz0 : ((List.range a).map f).sum = 0 := by
        apply List.sum_eq_zero
        intro x hx
        obtain ⟨w, hw, rfl⟩ := List.mem_map.1 hx
        exact hz w (by simp at hw; omega) (by simp at hw; omega)
      simp [hz0]
    · have ham : a < m := by omega
      rw [ih ham (fun w hw hwa => hz w (by omega) hwa)]
      have hfm : f m = 0 := hz m (by omega) (fun hmm => hne hmm.symm)
      simp [hfm]

theorem count_sum_length {l : List Nat} {N : Nat} (h : ∀ x ∈ l, x < N) :
    ((List.range N).map (fun w => l.count w)).sum = l.length := by
  induction l with
  | nil => simp
  | cons x xs ih =>
    have hx : x < N := h x (List.mem_cons_self _ _)
    have hxs : ∀ y ∈ xs, y < N := fun y hy => h y (List.mem_cons_of_mem _ hy)
    have hcnt : ∀ w, (x :: xs).count w = xs.count w + (if w = x then 1 else 0) := by
      intro w
      rcases eq_or_ne w x with rfl | hne
      · simp [List.count_cons_self]
      · simp [List.count_cons_of_ne hne, hne]
    rw [List.map_congr_left (fun w _ => hcnt w), sum_map_add, ih hxs,
      sum_map_range_single N _ x hx (fun w _ hne => by simp [hne])]
    simp

theorem list_sum_eq_range_getD (l : List Nat) :
    l.sum = ((List.range l.length).map (fun i => l.getD i 0)).sum := by
  conv_lhs => rw [← map_getD_range l 0]

/-- Extracting one source node's bucket from the edge list. -/
theorem filter_fst_edgeList (t : GraphTopology) {w : Nat} (hw : w < numNodes t) :
    (edgeList t).filter (fun p => p.1 = w) = (outDests t w).map (fun d => (w, d)) := by
  rw [edgeList]
  have hinner : ∀ (n : Nat),
      ((outDests t n).map (fun d => (n, d))).filter (fun p => p.1 = w) =
        if n = w then (outDests t n).map (fun d => (n, d)) else [] := by
    intro n
    rcases eq_or_ne n w with rfl | hne
    · rw [if_pos rfl]
      apply List.filter_eq_self.2
      intro p hp
      obtain ⟨d, _, rfl⟩ := List.mem_map.1 hp
      simp
    · rw [if_neg hne]
      apply List.filter_eq_nil_iff.2
      intro p hp
      obtain ⟨d, _, rfl⟩ := List.mem_map.1 hp
      simp [hne]
  have hdist : ∀ (l : List Nat),
      (l.flatMap (fun n => (outDests t n).map (fun d => (n, d)))).filter
          (fun p => p.1 = w) =
        l.flatMap (fun n => if n = w then (outDests t n).map (fun d => (n, d)) else []) := by
    intro l
    induction l with
    | nil => rfl
    | cons x xs ih =>
      rw [List.flatMap_cons, List.filter_append, ih, hinner x, List.flatMap_cons]
  rw [hdist]
  have hsingle : ∀ (l : List Nat), l.Nodup → w ∈ l →
      l.flatMap (fun n => if n = w then (outDests t n).map (fun d => (n, d)) else []) =
        (outDests t w).map (fun d => (w, d)) := by
    intro l hnd hmem
    induction l with
    | nil => simp at hmem
    | cons x xs ih =>
      rw [List.flatMap_cons]
      rcases eq_or_ne x w with hxw | hne
      · rw [if_pos hxw]
        have hnotin : x ∉ xs := (List.nodup_cons.1 hnd).1
        have hrest : xs.flatMap
            (fun n => if n = w then (outDests t n).map (fun d => (n, d)) else []) = [] := by
          apply List.flatMap_eq_nil_iff.2
          intro n hn
          refine if_neg (fun hc => hnotin ?_)
          rw [hxw, ← hc]
          exact hn
        rw [hrest, List.append_nil, hxw]
      · rw [if_neg hne, List.nil_append]
        exact ih (List.nodup_cons.1 hnd).2
          (by rcases List.mem_cons.1 hmem with h | h
              · exact absurd h.symm hne
              · exact h)
  exact hsingle (List.range (numNodes t)) (List.nodup_range _) (List.mem_range.2 hw)

theorem mem_edgeList_fst {t : GraphTopology} {p : Nat × Nat} (hp : p ∈ edgeList t) :
    p.1 < numNodes t := by
  rw [edgeList] at hp
  obtain ⟨n, hn, hmem⟩ := List.mem_flatMap.1 hp
  obtain ⟨d, _, rfl⟩ := List.mem_map.1 hmem
  exact List.mem_range.1 hn

theorem mem_outDests_lt {t : GraphTopology} (h : validCSR t = true) {n d : Nat}
    (hn : n < numNodes t) (hd : d ∈ outDests t n) : d < numNodes t := by
  obtain ⟨e, he, rfl⟩ := List.mem_map.1 hd
  rw [edgesOf, List.mem_range'] at he
  obtain ⟨i, hi, rfl⟩ := he
  have hbe := validCSR_begin_le_end h hn
  have hend := edgeEnd_le_numEdges h hn
  have : edgeBegin t n + 1 * i < numEdges t := by
    simp only [Nat.one_mul]
    have : edgeBegin t n + i < edgeEnd t n := by
      rw [degree] at hi
      omega
    omega
  exact validCSR_dest_lt h this

theorem mem_edgeList_snd {t : GraphTopology} (h : validCSR t = true) {p : Nat × Nat}
    (hp : p ∈ edgeList t) : p.2 < numNodes t := by
  rw [edgeList] at hp
  obtain ⟨n, hn, hmem⟩ := List.mem_flatMap.1 hp
  obtain ⟨d, hd, rfl⟩ := List.mem_map.1 hmem
  exact mem_outDests_lt h (List.mem_range.1 hn) hd

theorem edgeList_map_snd {t : GraphTopology} (h : validCSR t = true) :
    (edgeList t).map Prod.snd = t.dests := by
  rw [edgeList, List.map_flatMap]
  have : ∀ n ∈ List.range (numNodes t),
      ((outDests t n).map (fun d => (n, d))).map Prod.snd = outDests t n := by
    intro n _
    rw [List.map_map]
    simp [Function.comp]
  rw [List.flatMap_congr this]
  exact outDests_flatten h

theorem count_map_inj {α β : Type} [BEq α] [LawfulBEq α] [BEq β] [LawfulBEq β]
    (l : List α) (f : α → β) (hf : ∀ x y, f x = f y → x = y) (x : α) :
    (l.map f).count (f x) = l.count x := by
  induction l with
  | nil => rfl
  | cons a as ih =>
    rw [List.map_cons]
    rcases eq_or_ne a x with rfl | hne
    · rw [List.count_cons_self, List.count_cons_self, ih]
    · have hfne : f x ≠ f a := fun hc => hne (hf _ _ hc.symm)
      rw [List.count_cons_of_ne hfne, List.count_cons_of_ne (Ne.symm hne), ih]

theorem count_pair_map_const (a b : Nat) (l : List Nat) :
    (l.map (fun d => (a, d))).count (a, b) = l.count b :=
  count_map_inj l (fun d => (a, d)) (fun x y hxy => by simpa using hxy) b

theorem count_pair_edgeList {t : GraphTopology} {a : Nat} (ha : a < numNodes t) (b : Nat) :
    (edgeList t).count (a, b) = (outDests t a).count b := by
  have h1 : ((edgeList t).filter (fun p => p.1 = a)).count (a, b) =
      (edgeList t).count (a, b) := List.count_filter (by simp)
  rw [← h1, filter_fst_edgeList t ha, count_pair_map_const]

theorem count_pair_edgeList_zero {t : GraphTopology} {a : Nat} (ha : ¬a < numNodes t)
    (b : Nat) : (edgeList t).count (a, b) = 0 := by
  rw [List.count_eq_zero]
  intro hmem
  exact ha (mem_edgeList_fst hmem)

theorem validCSR_dests_mem {t : GraphTopology} (h : validCSR t = true) :
    ∀ x ∈ t.dests, x < numNodes t := by
  simp only [validCSR, Bool.and_eq_true, List.all_eq_true] at h
  intro x hx
  exact of_decide_eq_true (h.2 x hx)

theorem ext_getD {l₁ l₂ : List Nat} (hlen : l₁.length = l₂.length)
    (h : ∀ i, i < l₁.length → l₁.getD i 0 = l₂.getD i 0) : l₁ = l₂ := by
  apply List.ext_get hlen
  intro i hi1 hi2
  have hh := h i hi1
  rw [getD_of_lt _ _ hi1, getD_of_lt _ _ hi2] at hh
  exact hh

theorem outDests_getD {t : GraphTopology} {n i : Nat} (hi : i < degree t n) :
    (outDests t n).getD i 0 = t.dests.getD (edgeBegin t n + i) 0 := by
  have hlen : i < (outDests t n).length := by rw [length_outDests]; exact hi
  rw [getD_of_lt _ _ hlen]
  simp only [List.get_eq_getElem, outDests, List.getElem_map, edgesOf,
    List.getElem_range', edge_dest, Nat.one_mul]

/-- `katana::CreateTransposeGraphTopology` (PropertyGraph.cpp): zero the new
adjacency array, count every edge's destination with an atomic add, prefix-sum
to obtain the transposed adjacency index, set up per-node cursors at the
exclusive prefix sums, then scatter each edge (src, dst) of the original
graph, in traversal order, as a write of `src` into `dst`'s region of the new
destination array. An empty graph (`num_nodes == 0`) yields an empty
PropertyGraph. -/
def transposeTopo (t : GraphTopology) : GraphTopology :=
  if numNodes t = 0 then { adj_indices := [], dests := [] }
  else
    { adj_indices := prefixSum (countsOf t.dests (numNodes t)),
      dests := (scatterGo ((edgeList t).map (fun p => (p.2, p.1)))
        (startsList (countsOf t.dests (numNodes t)))
        (List.replicate (numEdges t) 0)).2 }

theorem transpose_adj {t : GraphTopology} (hN : numNodes t ≠ 0) :
    (transposeTopo t).adj_indices = prefixSum (countsOf t.dests (numNodes t)) := by
  rw [transposeTopo, if_neg hN]

theorem transpose_dests {t : GraphTopology} (hN : numNodes t ≠ 0) :
    (transposeTopo t).dests = (scatterGo ((edgeList t).map (fun p => (p.2, p.1)))
      (startsList (countsOf t.dests (numNodes t)))
      (List.replicate (numEdges t) 0)).2 := by
  rw [transposeTopo, if_neg hN]

theorem transpose_numNodes (t : GraphTopology) :
    numNodes (transposeTopo t) = numNodes t := by
  by_cases hN : numNodes t = 0
  · rw [transposeTopo, if_pos hN, hN]
    rfl
  · show (transposeTopo t).adj_indices.length = numNodes t
    rw [transpose_adj hN, length_prefixSum, length_countsOf]

theorem counts_sum_eq {t : GraphTopology} (h : validCSR t = true) :
    (countsOf t.dests (numNodes t)).sum = numEdges t := by
  rw [list_sum_eq_range_getD (countsOf t.dests (numNodes t)), length_countsOf]
  rw [List.map_congr_left
    (fun w' hw' => countsOf_getD t.dests (List.mem_range.1 hw'))]
  exact count_sum_length (validCSR_dests_mem h)

theorem transpose_numEdges {t : GraphTopology} (h : validCSR t = true) :
    numEdges (transposeTopo t) = numEdges t := by
  by_cases hN : numNodes t = 0
  · rw [transposeTopo, if_pos hN]
    have hempty : t.adj_indices = [] := List.length_eq_zero.1 hN
    have hlast := validCSR_last h
    rw [hempty] at hlast
    simp at hlast
    show ([] : List Nat).length = numEdges t
    simp [hlast]
  · show (transposeTopo t).dests.length = numEdges t
    rw [transpose_dests hN, scatterGo_length, List.length_replicate]

theorem transpose_edgeBegin {t : GraphTopology} (hN : numNodes t ≠ 0)
    {w : Nat} (hw : w < numNodes t) :
    edgeBegin (transposeTopo t) w = startOf (countsOf t.dests (numNodes t)) w := by
  rw [edgeBegin, transpose_adj hN]
  rcases eq_or_ne w 0 with rfl | hw0
  · rw [if_pos rfl, startOf_zero]
  · rw [if_neg hw0, prefixSum_getD (by rw [length_countsOf]; omega)]
    congr 1
    omega

theorem transpose_edgeEnd {t : GraphTopology} (hN : numNodes t ≠ 0)
    {w : Nat} (hw : w < numNodes t) :
    edgeEnd (transposeTopo t) w = startOf (countsOf t.dests (numNodes t)) (w + 1) := by
  rw [edgeEnd, transpose_adj hN, prefixSum_getD (by rw [length_countsOf]; exact hw)]

/-- Per-destination write counts of the transpose scatter match the
transposed adjacency: node `w` of the transpose receives one write per
original edge into `w`. -/
theorem transpose_filter_length {t : GraphTopology} (h : validCSR t = true)
    {w : Nat} (hw : w < numNodes t) :
    (((edgeList t).map (fun p => (p.2, p.1))).filter (fun p => p.1 = w)).length =
      t.dests.count w := by
  rw [← List.countP_eq_length_filter, List.countP_map]
  have h2 : (edgeList t).countP
      ((fun p : Nat × Nat => decide (p.1 = w)) ∘ (fun p : Nat × Nat => (p.2, p.1))) =
      ((edgeList t).map Prod.snd).countP (fun d => decide (d = w)) := by
    rw [List.countP_map]
    rfl
  rw [h2, edgeList_map_snd h, List.count_eq_countP]
  apply List.countP_congr
  intro x _
  simp

theorem transpose_outDests {t : GraphTopology} (h : validCSR t = true)
    {w : Nat} (hw : w < numNodes t) :
    outDests (transposeTopo t) w =
      (((edgeList t).map (fun p => (p.2, p.1))).filter (fun p => p.1 = w)).map
        Prod.snd := by
  have hN : numNodes t ≠ 0 := by omega
  set counts := countsOf t.dests (numNodes t) with hcountsdef
  set ws := (edgeList t).map (fun p => (p.2, p.1)) with hwsdef
  have hclen : counts.length = numNodes t := length_countsOf _ _
  have hcounts : ∀ w', w' < counts.length →
      (ws.filter (fun p => p.1 = w')).length = counts.getD w' 0 := by
    intro w' hw'
    rw [hcountsdef, countsOf_getD t.dests (hclen ▸ hw'),
      transpose_filter_length h (hclen ▸ hw')]
  have htargets : ∀ p ∈ ws, p.1 < counts.length := by
    intro p hp
    rw [hclen]
    obtain ⟨q, hq, rfl⟩ := List.mem_map.1 hp
    exact mem_edgeList_snd h hq
  have hreg := scatter_region counts ws (List.replicate (numEdges t) 0)
    (by rw [List.length_replicate, counts_sum_eq h]) hcounts htargets
  have hwN : w < counts.length := by rw [hclen]; exact hw
  have hdeg : degree (transposeTopo t) w = counts.getD w 0 := by
    rw [degree, transpose_edgeEnd hN hw, transpose_edgeBegin hN hw, ← hcountsdef,
      startOf_succ hwN]
    omega
  apply ext_getD
  · rw [length_outDests, hdeg, List.length_map, hcounts w hwN]
  · intro i hi
    have hideg : i < degree (transposeTopo t) w := by
      rw [← length_outDests]
      exact hi
    have hic : i < counts.getD w 0 := by rw [← hdeg]; exact hideg
    rw [outDests_getD hideg, transpose_edgeBegin hN hw, transpose_dests hN,
      ← hcountsdef, ← hwsdef]
    exact hreg w hwN i hic

/-- The transpose of a valid CSR topology again satisfies the CSR invariants. -/
theorem transpose_valid {t : GraphTopology} (h : validCSR t = true) :
    validCSR (transposeTopo t) = true := by
  by_cases hN : numNodes t = 0
  · have hempty : t.adj_indices = [] := List.length_eq_zero.1 hN
    rw [transposeTopo, if_pos hN]
    rfl
  · set counts := countsOf t.dests (numNodes t) with hcountsdef
    set ws := (edgeList t).map (fun p => (p.2, p.1)) with hwsdef
    have hclen : counts.length = numNodes t := length_countsOf _ _
    have hnn : numNodes (transposeTopo t) = numNodes t := transpose_numNodes t
    have hne : numEdges (transposeTopo t) = numEdges t := transpose_numEdges h
    rw [validCSR, Bool.and_eq_true, Bool.and_eq_true]
    refine ⟨⟨?_, ?_⟩, ?_⟩
    · apply List.all_eq_true.2
      intro n hn
      apply decide_eq_true
      have hnN : n < numNodes t := by
        rw [← hnn]
        exact List.mem_range.1 hn
      rw [transpose_edgeBegin hN hnN, transpose_edgeEnd hN hnN, ← hcountsdef]
      exact startOf_mono counts (Nat.le_succ n)
    · apply beq_iff_eq.2
      rw [hne, transpose_adj hN, ← hcountsdef, hnn]
      have hN1 : numNodes t - 1 < counts.length := by rw [hclen]; omega
      rw [prefixSum_getD hN1]
      have : numNodes t - 1 + 1 = counts.length := by rw [hclen]; omega
      rw [this, startOf_length, counts_sum_eq h]
    · apply List.all_eq_true.2
      intro x hx
      apply decide_eq_true
      rw [hnn]
      -- every entry of the scattered destination array is a source node id
      have hcounts : ∀ w', w' < counts.length →
          (ws.filter (fun p => p.1 = w')).length = counts.getD w' 0 := by
        intro w' hw'
        rw [hcountsdef, countsOf_getD t.dests (hclen ▸ hw'),
          transpose_filter_length h (hclen ▸ hw')]
      have htargets : ∀ p ∈ ws, p.1 < counts.length := by
        intro p hp
        rw [hclen]
        obtain ⟨q, hq, rfl⟩ := List.mem_map.1 hp
        exact mem_edgeList_snd h hq
      have hreg := scatter_region counts ws (List.replicate (numEdges t) 0)
        (by rw [List.length_replicate, counts_sum_eq h]) hcounts htargets
      have hexists : ∃ k, k < numEdges (transposeTopo t) ∧
          (transposeTopo t).dests.getD k 0 = x := by
        obtain ⟨pos, hval⟩ := List.mem_iff_get.1 hx
        exact ⟨pos, pos.isLt, by rw [getD_of_lt _ _ pos.isLt]; exact hval⟩
      obtain ⟨k0, hk0lt, hgetval⟩ := hexists
      have hposlt : k0 < numEdges t := by
        rw [← hne]
        exact hk0lt
      have hpossum : k0 < counts.sum := by
        rw [counts_sum_eq h]
        exact hposlt
      obtain ⟨w, hwlen, hlo, hhi⟩ := exists_slot hpossum
      have hk : k0 - startOf counts w < counts.getD w 0 := by
        rw [startOf_succ hwlen] at hhi
        omega
      have harith : startOf counts w + (k0 - startOf counts w) = k0 := by
        omega
      have hthis := hreg w hwlen _ hk
      rw [harith] at hthis
      rw [transpose_dests hN, ← hcountsdef, ← hwsdef] at hgetval
      rw [hgetval] at hthis
      -- x is the second component of a pair in ws, i.e. an original source
      have hklen : k0 - startOf counts w <
          ((ws.filter (fun p => p.1 = w)).map Prod.snd).length := by
        rw [List.length_map, hcounts w hwlen]
        exact hk
      rw [getD_of_lt _ _ hklen] at hthis
      have hmem : x ∈ (ws.filter (fun p => p.1 = w)).map Prod.snd := by
        rw [hthis]
        exact List.get_mem _ _ _
      obtain ⟨p, hpmem, rfl⟩ := List.mem_map.1 hmem
      have hpws : p ∈ ws := List.mem_of_mem_filter hpmem
      obtain ⟨q, hq, rfl⟩ := List.mem_map.1 hpws
      exact mem_edgeList_fst hq

theorem map_fst_snd_filter (l : List (Nat × Nat)) (a : Nat) :
    (l.filter (fun p => p.1 = a)).map (fun p => (a, p.2)) =
      l.filter (fun p => p.1 = a) := by
  induction l with
  | nil => rfl
  | cons x xs ih =>
    obtain ⟨x1, x2⟩ := x
    rw [List.filter_cons]
    rcases eq_or_ne x1 a with hx1 | hne
    · rw [if_pos (by simpa using hx1), List.map_cons, ih, hx1]
    · rw [if_neg (by simpa using hne), ih]

/-- One transpose reverses every edge: the (src,dst) pair multiset of the
transpose is the swap of the input's pair multiset. -/
theorem count_pair_transpose {t : GraphTopology} (h : validCSR t = true) (a b : Nat) :
    (edgeList (transposeTopo t)).count (a, b) = (edgeList t).count (b, a) := by
  rcases Nat.lt_or_ge a (numNodes t) with ha | ha
  · have ha' : a < numNodes (transposeTopo t) := by
      rw [transpose_numNodes]
      exact ha
    rw [count_pair_edgeList ha' b, transpose_outDests h ha]
    set ws := (edgeList t).map (fun p => (p.2, p.1)) with hwsdef
    have step1 : ((ws.filter (fun p => p.1 = a)).map Prod.snd).count b =
        (ws.filter (fun p => p.1 = a)).count (a, b) := by
      rw [← count_pair_map_const a b, List.map_map]
      have hcomp : ((fun d => (a, d)) ∘ Prod.snd) = fun p : Nat × Nat => (a, p.2) := rfl
      rw [hcomp, map_fst_snd_filter]
    have step2 : (ws.filter (fun p => p.1 = a)).count (a, b) = ws.count (a, b) :=
      List.count_filter (by simp)
    have step3 : ws.count (a, b) = (edgeList t).count (b, a) := by
      rw [hwsdef]
      have := count_map_inj (edgeList t) (fun p : Nat × Nat => (p.2, p.1))
        (fun x y hxy => Prod.ext (congrArg Prod.snd hxy) (congrArg Prod.fst hxy))
        (b, a)
      exact this
    rw [step1, step2, step3]
  · have h1 : (edgeList (transposeTopo t)).count (a, b) = 0 := by
      apply count_pair_edgeList_zero
      rw [transpose_numNodes]
      omega
    have h2 : (edgeList t).count (b, a) = 0 := by
      rw [List.count_eq_zero]
      intro hmem
      have := mem_edgeList_snd h hmem
      omega
    rw [h1, h2]

/-- The example graph of spec section 8: N = 4, edges (0,1), (0,2), (1,2) and
the self-loop (3,3), in CSR form. -/
def exTopo : GraphTopology := { adj_indices := [2, 3, 3, 4], dests := [1, 2, 2, 3] }

/-- C5: Transposition is involutive up to edge order: for every GraphTopology
satisfying the CSR invariants, applying `CreateTransposeGraphTopology` twice
yields a topology in which every node's out-destination multiset equals that
of the original (edge ids / order within a node's range may differ). -/
theorem C5_transpose_involutive {t : GraphTopology} (h : validCSR t = true)
    {n : Nat} (hn : n < numNodes t) :
    (outDests (transposeTopo (transposeTopo t)) n).Perm (outDests t n) := by
  apply List.perm_iff_count.2
  intro d
  have h2 : validCSR (transposeTopo t) = true := transpose_valid h
  have hn1 : n < numNodes (transposeTopo t) := by
    rw [transpose_numNodes]
    exact hn
  have hn2 : n < numNodes (transposeTopo (transposeTopo t)) := by
    rw [transpose_numNodes]
    exact hn1
  have e1 : (outDests (transposeTopo (transposeTopo t)) n).count d =
      (edgeList (transposeTopo (transposeTopo t))).count (n, d) :=
    (count_pair_edgeList hn2 d).symm
  have e2 : (edgeList (transposeTopo (transposeTopo t))).count (n, d) =
      (edgeList (transposeTopo t)).count (d, n) := count_pair_transpose h2 n d
  have e3 : (edgeList (transposeTopo t)).count (d, n) =
      (edgeList t).count (n, d) := count_pair_transpose h d n
  have e4 : (edgeList t).count (n, d) = (outDests t n).count d :=
    count_pair_edgeList hn d
  rw [e1, e2, e3, e4]

theorem C5_witness : validCSR exTopo = true ∧ 0 < numNodes exTopo ∧
    (outDests (transposeTopo (transposeTopo exTopo)) 0).Perm (outDests exTopo 0) :=
  ⟨by decide, by decide, C5_transpose_involutive (by decide) (by decide)⟩

theorem map_range_getD {f : Nat → Nat} {N w : Nat} (hw : w < N) :
    ((List.range N).map f).getD w 0 = f w := by
  have hl : w < ((List.range N).map f).length := by simp [hw]
  rw [getD_of_lt _ _ hl]
  simp

/-- `katana::CreateSymmetricGraph`, counting pass: `out_indices[n]` starts as
node n's out-degree, then every non-self edge atomically bumps its
destination's slot (`if (n != dest) __sync_fetch_and_add(&(out_indices[dest]), 1)`). -/
def symmetricCounts (t : GraphTopology) : List Nat :=
  (edgeList t).foldl
    (fun cs p => if p.1 ≠ p.2 then cs.set p.2 (cs.getD p.2 0 + 1) else cs)
    ((List.range (numNodes t)).map (degree t))

/-- The write sequence of the `CreateSymmetricGraph` scatter pass, in program
order: each edge (src,dst) first writes `dst` at src's cursor, then (unless it
is a self-loop) writes `src` at dst's cursor. -/
def symWrites (t : GraphTopology) : List (Nat × Nat) :=
  (edgeList t).flatMap
    (fun p => (p.1, p.2) :: (if p.2 ≠ p.1 then [(p.2, p.1)] else []))

/-- `katana::CreateSymmetricGraph` (PropertyGraph.cpp): counting pass, prefix
sum, per-node cursors at the exclusive prefix sums, then the scatter pass over
all edges; `out_dests` is allocated with `num_edges_symmetric =
out_indices[num_nodes-1]` entries. -/
def symmetricTopo (t : GraphTopology) : GraphTopology :=
  if numNodes t = 0 then { adj_indices := [], dests := [] }
  else
    { adj_indices := prefixSum (symmetricCounts t),
      dests := (scatterGo (symWrites t) (startsList (symmetricCounts t))
        (List.replicate ((prefixSum (symmetricCounts t)).getD (numNodes t - 1) 0) 0)).2 }

/-- The number of self-loop edges of the graph. -/
def selfLoopCount (t : GraphTopology) : Nat :=
  (edgeList t).countP (fun p => decide (p.1 = p.2))

theorem length_symCounts_foldl (ps : List (Nat × Nat)) (cs : List Nat) :
    (ps.foldl (fun cs p => if p.1 ≠ p.2 then cs.set p.2 (cs.getD p.2 0 + 1) else cs)
      cs).length = cs.length := by
  induction ps generalizing cs with
  | nil => rfl
  | cons q rest ih =>
    rw [List.foldl_cons]
    by_cases hq : q.1 ≠ q.2
    · rw [if_pos hq, ih, List.length_set]
    · rw [if_neg hq, ih]

theorem length_symmetricCounts (t : GraphTopology) :
    (symmetricCounts t).length = numNodes t := by
  rw [symmetricCounts, length_symCounts_foldl]
  simp

theorem symCounts_foldl_getD (ps : List (Nat × Nat)) (cs : List Nat) {w : Nat}
    (hw : w < cs.length) :
    (ps.foldl (fun cs p => if p.1 ≠ p.2 then cs.set p.2 (cs.getD p.2 0 + 1) else cs)
        cs).getD w 0 =
      cs.getD w 0 + ps.countP (fun p => decide (p.2 = w) && decide (p.1 ≠ p.2)) := by
  induction ps generalizing cs with
  | nil => simp
  | cons q rest ih =>
    rw [List.foldl_cons, List.countP_cons]
    by_cases hq : q.1 ≠ q.2
    · rw [if_pos hq]
      have hlen : w < (cs.set q.2 (cs.getD q.2 0 + 1)).length := by
        rw [List.length_set]
        exact hw
      rw [ih _ hlen]
      by_cases hqw : q.2 = w
      · rw [hqw, getD_set_self hw]
        have hcond : (decide (w = w) && decide (q.1 ≠ w)) = true := by
          simp only [decide_eq_true_eq, Bool.and_eq_true, ne_eq]
          refine ⟨trivial, ?_⟩
          rw [← hqw]
          exact hq
        rw [hcond, if_pos rfl]
        omega
      · rw [getD_set_ne hqw]
        have hcond : (decide (q.2 = w) && decide (q.1 ≠ q.2)) = false := by
          simp [hqw]
        rw [hcond]
        simp
    · rw [if_neg hq, ih _ hw]
      have hq2 : q.1 = q.2 := not_not.1 hq
      have hcond : (decide (q.2 = w) && decide (q.1 ≠ q.2)) = false := by
        simp [hq2]
      rw [hcond]
      simp

theorem symCounts_getD {t : GraphTopology} {w : Nat} (hw : w < numNodes t) :
    (symmetricCounts t).getD w 0 =
      degree t w +
        (edgeList t).countP (fun p => decide (p.2 = w) && decide (p.1 ≠ p.2)) := by
  rw [symmetricCounts, symCounts_foldl_getD _ _ (by simp [hw]), map_range_getD hw]

theorem countP_fst_edgeList {t : GraphTopology} {w : Nat} (hw : w < numNodes t) :
    (edgeList t).countP (fun p => decide (p.1 = w)) = degree t w := by
  rw [List.countP_eq_length_filter, filter_fst_edgeList t hw, List.length_map,
    length_outDests]

theorem symWrites_filter_length (ps : List (Nat × Nat)) (w : Nat) :
    ((ps.flatMap (fun p => (p.1, p.2) :: (if p.2 ≠ p.1 then [(p.2, p.1)] else []))).filter
        (fun q => q.1 = w)).length =
      ps.countP (fun p => decide (p.1 = w)) +
        ps.countP (fun p => decide (p.2 = w) && decide (p.1 ≠ p.2)) := by
  induction ps with
  | nil => rfl
  | cons q rest ih =>
    obtain ⟨a, b⟩ := q
    rw [List.flatMap_cons, List.filter_append, List.length_append, ih,
      List.countP_cons, List.countP_cons]
    have hhead : (((a, b) :: (if b ≠ a then [(b, a)] else [])).filter
        (fun q => q.1 = w)).length =
        (if a = w then 1 else 0) + (if b = w ∧ a ≠ b then 1 else 0) := by
      by_cases hba : b = a
      · subst hba
        simp only [ne_eq, not_true_eq_false, if_neg, ite_false]
        by_cases haw : b = w <;> simp [haw, List.filter_cons]
      · have hba' : b ≠ a := hba
        simp only [ne_eq, hba', not_false_eq_true, if_pos, ite_true]
        by_cases haw : a = w <;> by_cases hbw : b = w <;>
          simp [haw, hbw, List.filter_cons, fun h => hba (h : b = a)] <;>
          omega
    rw [hhead]
    by_cases haw : a = w <;> by_cases hbw : b = w <;> by_cases hab : a = b <;>
      simp [haw, hbw, hab] <;> omega

theorem countP_not_add {α : Type} (l : List α) (p : α → Bool) :
    l.countP (fun a => ! p a) + l.countP p = l.length := by
  induction l with
  | nil => rfl
  | cons x xs ih =>
    rw [List.countP_cons, List.countP_cons, List.length_cons]
    by_cases hx : p x = true
    · rw [if_pos hx, if_neg (by simp [hx])]
      omega
    · rw [if_neg hx, if_pos (by simp [Bool.not_eq_true] at hx ⊢; exact hx)]
      omega

theorem edgeList_length {t : GraphTopology} (h : validCSR t = true) :
    (edgeList t).length = numEdges t := by
  rw [edgeList, List.length_flatMap]
  have : ∀ n ∈ List.range (numNodes t),
      (List.length ∘ fun n => (outDests t n).map (fun d => (n, d))) n = degree t n := by
    intro n _
    simp [Function.comp, length_outDests]
  rw [List.map_congr_left this]
  exact sum_degrees h

/-- Summing a per-destination count over all destinations counts each pair
once (each pair's destination is a valid node). -/
theorem countP_snd_sum {l : List (Nat × Nat)} {N : Nat} (h : ∀ p ∈ l, p.2 < N)
    (P : Nat × Nat → Bool) :
    ((List.range N).map
      (fun w => l.countP (fun p => decide (p.2 = w) && P p))).sum = l.countP P := by
  induction l with
  | nil => simp
  | cons q rest ih =>
    have hq : q.2 < N := h q (List.mem_cons_self _ _)
    have hrest := ih (fun p hp => h p (List.mem_cons_of_mem _ hp))
    have hcnt : ∀ w, ((q :: rest).countP (fun p => decide (p.2 = w) && P p)) =
        rest.countP (fun p => decide (p.2 = w) && P p) +
          (if q.2 = w ∧ P q = true then 1 else 0) := by
      intro w
      rw [List.countP_cons]
      congr 1
      by_cases hqw : q.2 = w <;> by_cases hP : P q = true <;> simp [hqw, hP]
    rw [List.map_congr_left (fun w _ => hcnt w), sum_map_add, hrest, List.countP_cons]
    congr 1
    by_cases hP : P q = true
    · rw [sum_map_range_single N _ q.2 hq
        (fun w _ hne => by rw [if_neg (fun hc => hne hc.1.symm)])]
      rw [if_pos ⟨rfl, hP⟩, if_pos hP]
    · have hz : ((List.range N).map
          (fun w => if q.2 = w ∧ P q = true then 1 else 0)).sum = 0 := by
        apply List.sum_eq_zero
        intro x hx
        obtain ⟨w, _, rfl⟩ := List.mem_map.1 hx
        rw [if_neg (fun hc => hP hc.2)]
      rw [hz, if_neg hP]

/-- `num_edges_symmetric` is `2E - num_self_loops`: the counting pass charges
each node its out-degree plus one per incoming non-self edge. -/
theorem symCounts_sum {t : GraphTopology} (h : validCSR t = true) :
    (symmetricCounts t).sum = 2 * numEdges t - selfLoopCount t := by
  rw [list_sum_eq_range_getD (symmetricCounts t), length_symmetricCounts]
  have hgd : ∀ w ∈ List.range (numNodes t), (symmetricCounts t).getD w 0 =
      degree t w +
        (edgeList t).countP (fun p => decide (p.2 = w) && decide (p.1 ≠ p.2)) := by
    intro w hw
    exact symCounts_getD (List.mem_range.1 hw)
  rw [List.map_congr_left hgd, sum_map_add, sum_degrees h,
    countP_snd_sum (fun p hp => mem_edgeList_snd h hp)]
  have hsplit : (edgeList t).countP (fun p => decide (p.1 ≠ p.2)) +
      selfLoopCount t = numEdges t := by
    rw [selfLoopCount, ← edgeList_length h]
    have hcongr : (edgeList t).countP (fun p => decide (p.1 ≠ p.2)) =
        (edgeList t).countP (fun p => ! decide (p.1 = p.2)) := by
      apply List.countP_congr
      intro x _
      simp
    rw [hcongr]
    exact countP_not_add _ _
  have hle : selfLoopCount t ≤ numEdges t := by omega
  omega

theorem sym_adj {t : GraphTopology} (hN : numNodes t ≠ 0) :
    (symmetricTopo t).adj_indices = prefixSum (symmetricCounts t) := by
  rw [symmetricTopo, if_neg hN]

theorem sym_dests {t : GraphTopology} (hN : numNodes t ≠ 0) :
    (symmetricTopo t).dests =
      (scatterGo (symWrites t) (startsList (symmetricCounts t))
        (List.replicate ((prefixSum (symmetricCounts t)).getD (numNodes t - 1) 0)
          0)).2 := by
  rw [symmetricTopo, if_neg hN]

theorem sym_numNodes (t : GraphTopology) :
    numNodes (symmetricTopo t) = numNodes t := by
  by_cases hN : numNodes t = 0
  · rw [symmetricTopo, if_pos hN, hN]
    rfl
  · show (symmetricTopo t).adj_indices.length = numNodes t
    rw [sym_adj hN, length_prefixSum, length_symmetricCounts]

theorem sym_alloc {t : GraphTopology} (hN : numNodes t ≠ 0) :
    (prefixSum (symmetricCounts t)).getD (numNodes t - 1) 0 =
      (symmetricCounts t).sum := by
  have h1 : numNodes t - 1 < (symmetricCounts t).length := by
    rw [length_symmetricCounts]
    omega
  rw [prefixSum_getD h1]
  have : numNodes t - 1 + 1 = (symmetricCounts t).length := by
    rw [length_symmetricCounts]
    omega
  rw [this, startOf_length]

theorem sym_numEdges {t : GraphTopology} (h : validCSR t = true) :
    numEdges (symmetricTopo t) = 2 * numEdges t - selfLoopCount t := by
  by_cases hN : numNodes t = 0
  · rw [symmetricTopo, if_pos hN]
    have hE : numEdges t = 0 := by
      have hempty : t.adj_indices = [] := List.length_eq_zero.1 hN
      have hlast := validCSR_last h
      rw [hempty] at hlast
      simpa using hlast
    have hsl : selfLoopCount t = 0 := by
      rw [selfLoopCount, edgeList, numNodes] at *
      rw [hN]
      rfl
    show ([] : List Nat).length = 2 * numEdges t - selfLoopCount t
    rw [hE, hsl]
    rfl
  · show (symmetricTopo t).dests.length = _
    rw [sym_dests hN, scatterGo_length, List.length_replicate, sym_alloc hN,
      symCounts_sum h]

theorem symWrites_targets {t : GraphTopology} (h : validCSR t = true) :
    ∀ p ∈ symWrites t, p.1 < numNodes t := by
  intro p hp
  rw [symWrites] at hp
  obtain ⟨q, hq, hmem⟩ := List.mem_flatMap.1 hp
  rcases List.mem_cons.1 hmem with rfl | htail
  · exact mem_edgeList_fst hq
  · by_cases hqq : q.2 ≠ q.1
    · rw [if_pos hqq] at htail
      rcases List.mem_cons.1 htail with rfl | hnil
      · exact mem_edgeList_snd h hq
      · simp at hnil
    · rw [if_neg hqq] at htail
      simp at htail

theorem sym_filter_length {t : GraphTopology} (h : validCSR t = true)
    {w : Nat} (hw : w < numNodes t) :
    ((symWrites t).filter (fun q => q.1 = w)).length =
      (symmetricCounts t).getD w 0 := by
  rw [symWrites, symWrites_filter_length, countP_fst_edgeList hw, symCounts_getD hw]

theorem sym_edgeBegin {t : GraphTopology} (hN : numNodes t ≠ 0)
    {w : Nat} (hw : w < numNodes t) :
    edgeBegin (symmetricTopo t) w = startOf (symmetricCounts t) w := by
  rw [edgeBegin, sym_adj hN]
  rcases eq_or_ne w 0 with rfl | hw0
  · rw [if_pos rfl, startOf_zero]
  · rw [if_neg hw0, prefixSum_getD (by rw [length_symmetricCounts]; omega)]
    congr 1
    omega

theorem sym_edgeEnd {t : GraphTopology} (hN : numNodes t ≠ 0)
    {w : Nat} (hw : w < numNodes t) :
    edgeEnd (symmetricTopo t) w = startOf (symmetricCounts t) (w + 1) := by
  rw [edgeEnd, sym_adj hN, prefixSum_getD (by rw [length_symmetricCounts]; exact hw)]

theorem sym_outDests {t : GraphTopology} (h : validCSR t = true)
    {w : Nat} (hw : w < numNodes t) :
    outDests (symmetricTopo t) w =
      ((symWrites t).filter (fun p => p.1 = w)).map Prod.snd := by
  have hN : numNodes t ≠ 0 := by omega
  set counts := symmetricCounts t with hcountsdef
  set ws := symWrites t with hwsdef
  have hclen : counts.length = numNodes t := length_symmetricCounts t
  have hcounts : ∀ w', w' < counts.length →
      (ws.filter (fun p => p.1 = w')).length = counts.getD w' 0 := by
    intro w' hw'
    rw [hwsdef, hcountsdef]
    exact sym_filter_length h (hclen ▸ hw')
  have htargets : ∀ p ∈ ws, p.1 < counts.length := by
    intro p hp
    rw [hclen]
    exact symWrites_targets h p hp
  have hreg := scatter_region counts ws
    (List.replicate ((prefixSum counts).getD (numNodes t - 1) 0) 0)
    (by rw [List.length_replicate, hcountsdef]; exact sym_alloc hN) hcounts htargets
  have hwN : w < counts.length := by rw [hclen]; exact hw
  have hdeg : degree (symmetricTopo t) w = counts.getD w 0 := by
    rw [degree, sym_edgeEnd hN hw, sym_edgeBegin hN hw, ← hcountsdef,
      startOf_succ hwN]
    omega
  apply ext_getD
  · rw [length_outDests, hdeg, List.length_map, hcounts w hwN]
  · intro i hi
    have hideg : i < degree (symmetricTopo t) w := by
      rw [← length_outDests]
      exact hi
    have hic : i < counts.getD w 0 := by rw [← hdeg]; exact hideg
    rw [outDests_getD hideg, sym_edgeBegin hN hw, sym_dests hN,
      ← hcountsdef, ← hwsdef]
    exact hreg w hwN i hic

theorem ite_beq {α : Type} [BEq α] [LawfulBEq α] [DecidableEq α] (x y : α) (m n : Nat) :
    (if x == y then m else n) = (if x = y then m else n) := by
  by_cases h : x = y
  · rw [if_pos (beq_iff_eq.2 h), if_pos h]
  · rw [if_neg (by simpa using h), if_neg h]

/-- The write-pair multiset of the symmetrize scatter: each pair once plus
each non-self pair swapped once. -/
theorem count_symWrites (ps : List (Nat × Nat)) (a b : Nat) :
    (ps.flatMap (fun p => (p.1, p.2) ::
        (if p.2 ≠ p.1 then [(p.2, p.1)] else []))).count (a, b) =
      ps.count (a, b) + (if a ≠ b then ps.count (b, a) else 0) := by
  induction ps with
  | nil => simp
  | cons q rest ih =>
    rw [List.flatMap_cons, List.count_append, ih]
    have hh : (((q.1, q.2) : Nat × Nat) ::
        (if q.2 ≠ q.1 then [(q.2, q.1)] else [])).count (a, b) =
        (if ((q.1, q.2) : Nat × Nat) = (a, b) then 1 else 0) +
          (if q.2 ≠ q.1 ∧ ((q.2, q.1) : Nat × Nat) = (a, b) then 1 else 0) := by
      rw [List.count_cons, ite_beq]
      by_cases hp : q.2 = q.1
      · rw [if_neg (fun hc : q.2 ≠ q.1 => hc hp), List.count_nil,
          if_neg (fun hc : q.2 ≠ q.1 ∧ ((q.2, q.1) : Nat × Nat) = (a, b) => hc.1 hp)]
        omega
      · rw [if_pos (hp : q.2 ≠ q.1), List.count_cons, List.count_nil, ite_beq]
        by_cases hX : ((q.2, q.1) : Nat × Nat) = (a, b)
        · rw [if_pos hX,
            if_pos (show q.2 ≠ q.1 ∧ ((q.2, q.1) : Nat × Nat) = (a, b) from ⟨hp, hX⟩)]
          omega
        · rw [if_neg hX,
            if_neg (fun hc : q.2 ≠ q.1 ∧ ((q.2, q.1) : Nat × Nat) = (a, b) => hX hc.2)]
          omega
    rw [hh, List.count_cons, List.count_cons, ite_beq, ite_beq]
    simp only [Prod.mk.eta]
    by_cases hab : a ≠ b
    · rw [if_pos hab, if_pos hab]
      have hiter : (if q.2 ≠ q.1 ∧ ((q.2, q.1) : Nat × Nat) = (a, b) then 1 else 0) =
          (if q = ((b, a) : Nat × Nat) then 1 else 0) := by
        by_cases hX : q = ((b, a) : Nat × Nat)
        · have hb : q.1 = b := by
            have := congrArg Prod.fst hX
            simpa using this
          have ha : q.2 = a := by
            have := congrArg Prod.snd hX
            simpa using this
          rw [if_pos ⟨by rw [ha, hb]; exact fun hc => hab hc,
              by rw [ha, hb]⟩, if_pos hX]
        · rw [if_neg ?side, if_neg hX]
          case side =>
            rintro ⟨hne, hc⟩
            apply hX
            have h1 : q.2 = a := by
              have := congrArg Prod.fst hc
              simpa using this
            have h2 : q.1 = b := by
              have := congrArg Prod.snd hc
              simpa using this
            exact Prod.ext h2 h1
      rw [hiter]
      omega
    · rw [if_neg hab, if_neg hab]
      have hab' : a = b := not_not.1 hab
      have hiter : (if q.2 ≠ q.1 ∧ ((q.2, q.1) : Nat × Nat) = (a, b) then 1 else 0) =
          0 := by
        rw [if_neg]
        rintro ⟨hne, hc⟩
        apply hne
        have h1 : q.2 = a := by
          have := congrArg Prod.fst hc
          simpa using this
        have h2 : q.1 = b := by
          have := congrArg Prod.snd hc
          simpa using this
        rw [h1, h2, hab']
      rw [hiter]
      omega

/-- Pair multiset of `CreateSymmetricGraph`: every pair of the input once,
plus the swap of every non-self pair once. -/
theorem count_pair_symmetric {t : GraphTopology} (h : validCSR t = true) (a b : Nat) :
    (edgeList (symmetricTopo t)).count (a, b) =
      (edgeList t).count (a, b) +
        (if a ≠ b then (edgeList t).count (b, a) else 0) := by
  rcases Nat.lt_or_ge a (numNodes t) with ha | ha
  · have ha' : a < numNodes (symmetricTopo t) := by
      rw [sym_numNodes]
      exact ha
    rw [count_pair_edgeList ha' b, sym_outDests h ha]
    have step1 : (((symWrites t).filter (fun p => p.1 = a)).map Prod.snd).count b =
        ((symWrites t).filter (fun p => p.1 = a)).count (a, b) := by
      rw [← count_pair_map_const a b, List.map_map]
      have hcomp : ((fun d => (a, d)) ∘ Prod.snd) = fun p : Nat × Nat => (a, p.2) := rfl
      rw [hcomp, map_fst_snd_filter]
    have step2 : ((symWrites t).filter (fun p => p.1 = a)).count (a, b) =
        (symWrites t).count (a, b) := List.count_filter (by simp)
    rw [step1, step2, symWrites]
    exact count_symWrites (edgeList t) a b
  · have h1 : (edgeList (symmetricTopo t)).count (a, b) = 0 := by
      apply count_pair_edgeList_zero
      rw [sym_numNodes]
      omega
    have h2 : (edgeList t).count (a, b) = 0 := by
      rw [List.count_eq_zero]
      intro hmem
      have := mem_edgeList_fst hmem
      omega
    have h3 : (edgeList t).count (b, a) = 0 := by
      rw [List.count_eq_zero]
      intro hmem
      have := mem_edgeList_snd h hmem
      omega
    rw [h1, h2, h3]
    simp

/-- C1: For every PropertyGraph whose topology satisfies the CSR invariants,
`CreateSymmetricGraph` returns a graph that, for every edge (u,v) with u ≠ v
in the input, contains both (u,v) and (v,u); self-loop edges (u,u) are not
duplicated (their multiplicity is unchanged); and the output edge count is
`2*num_edges(input) - number of self-loops`. -/
theorem C1_symmetric_graph {t : GraphTopology} (h : validCSR t = true) :
    (∀ u v : Nat, (u, v) ∈ edgeList t → u ≠ v →
        (u, v) ∈ edgeList (symmetricTopo t) ∧
          (v, u) ∈ edgeList (symmetricTopo t)) ∧
      (∀ u : Nat, (edgeList (symmetricTopo t)).count (u, u) =
        (edgeList t).count (u, u)) ∧
      numEdges (symmetricTopo t) = 2 * numEdges t - selfLoopCount t := by
  refine ⟨?_, ?_, sym_numEdges h⟩
  · intro u v hmem hne
    have hpos : 0 < (edgeList t).count (u, v) := List.count_pos_iff_mem.2 hmem
    constructor
    · apply List.count_pos_iff_mem.1
      rw [count_pair_symmetric h u v, if_pos hne]
      omega
    · apply List.count_pos_iff_mem.1
      rw [count_pair_symmetric h v u, if_pos (Ne.symm hne)]
      omega
  · intro u
    rw [count_pair_symmetric h u u, if_neg (fun hc => hc rfl)]
    omega

theorem C1_witness : validCSR exTopo = true ∧
    ((∀ u v : Nat, (u, v) ∈ edgeList exTopo → u ≠ v →
        (u, v) ∈ edgeList (symmetricTopo exTopo) ∧
          (v, u) ∈ edgeList (symmetricTopo exTopo)) ∧
      (∀ u : Nat, (edgeList (symmetricTopo exTopo)).count (u, u) =
        (edgeList exTopo).count (u, u)) ∧
      numEdges (symmetricTopo exTopo) =
        2 * numEdges exTopo - selfLoopCount exTopo) :=
  ⟨by decide, C1_symmetric_graph (by decide)⟩

theorem edgeBegin_of_prefixSum (l dests : List Nat) {i : Nat} (hi : i < l.length) :
    edgeBegin { adj_indices := prefixSum l, dests := dests } i = startOf l i := by
  rw [edgeBegin]
  rcases eq_or_ne i 0 with rfl | hi0
  · rw [if_pos rfl, startOf_zero]
  · rw [if_neg hi0]
    show (prefixSum l).getD (i - 1) 0 = _
    rw [prefixSum_getD (by omega)]
    congr 1
    omega

theorem edgeEnd_of_prefixSum (l dests : List Nat) {i : Nat} (hi : i < l.length) :
    edgeEnd { adj_indices := prefixSum l, dests := dests } i = startOf l (i + 1) := by
  rw [edgeEnd]
  show (prefixSum l).getD i 0 = _
  rw [prefixSum_getD hi]

theorem degree_of_prefixSum (l dests : List Nat) {i : Nat} (hi : i < l.length) :
    degree { adj_indices := prefixSum l, dests := dests } i = l.getD i 0 := by
  rw [degree, edgeEnd_of_prefixSum l dests hi, edgeBegin_of_prefixSum l dests hi,
    startOf_succ hi]
  omega

theorem length_foldl_set {β : Type} (l : List β) (g : β → Nat) (v : β → Nat)
    (init : List Nat) :
    (l.foldl (fun arr k => arr.set (g k) (v k)) init).length = init.length := by
  induction l generalizing init with
  | nil => rfl
  | cons x xs ih =>
    rw [List.foldl_cons, ih, List.length_set]

/-- Inverse-permutation array built by the loop
`old_to_new_mapping[order[i]] = i`. -/
def invPermList (order : List Nat) (N : Nat) : List Nat :=
  (List.range order.length).foldl (fun arr i => arr.set (order.getD i 0) i)
    (List.replicate N 0)

theorem length_invPermList (order : List Nat) (N : Nat) :
    (invPermList order N).length = N := by
  rw [invPermList, length_foldl_set, List.length_replicate]

theorem invPermList_getD {order : List Nat} {N : Nat}
    (hperm : order.Perm (List.range N)) :
    ∀ i, i < N → (invPermList order N).getD (order.getD i 0) 0 = i := by
  have hlen : order.length = N := by
    rw [hperm.length_eq, List.length_range]
  have hnd : order.Nodup := hperm.nodup_iff.2 (List.nodup_range N)
  have hmem : ∀ x ∈ order, x < N := by
    intro x hx
    exact List.mem_range.1 (hperm.mem_iff.1 hx)
  have hgetlt : ∀ i, i < N → order.getD i 0 < N := by
    intro i hi
    apply hmem
    rw [getD_of_lt _ _ (by omega)]
    exact List.get_mem _ _ _
  have hinj : ∀ i j, i < N → j < N → order.getD i 0 = order.getD j 0 → i = j := by
    intro i j hi hj hij
    rw [getD_of_lt _ _ (by omega : i < order.length),
      getD_of_lt _ _ (by omega : j < order.length)] at hij
    have := (List.Nodup.get_inj_iff hnd).1 hij
    exact congrArg Fin.val this
  have aux : ∀ k, k ≤ N →
      (∀ i, i < k →
        ((List.range k).foldl (fun arr i => arr.set (order.getD i 0) i)
          (List.replicate N 0)).getD (order.getD i 0) 0 = i) ∧
      ((List.range k).foldl (fun arr i => arr.set (order.getD i 0) i)
          (List.replicate N 0)).length = N := by
    intro k
    induction k with
    | zero =>
      intro _
      exact ⟨fun i hi => absurd hi (by omega), by
        rw [length_foldl_set, List.length_replicate]⟩
    | succ m ih =>
      intro hm
      obtain ⟨ihA, ihlen⟩ := ih (by omega)
      have hstep : (List.range (m + 1)).foldl
          (fun arr i => arr.set (order.getD i 0) i) (List.replicate N 0) =
          ((List.range m).foldl (fun arr i => arr.set (order.getD i 0) i)
            (List.replicate N 0)).set (order.getD m 0) m := by
        rw [List.range_succ, List.foldl_append, List.foldl_cons, List.foldl_nil]
      refine ⟨?_, by rw [hstep, List.length_set, ihlen]⟩
      intro i hi
      rw [hstep]
      rcases eq_or_ne i m with rfl | hne
      · exact getD_set_self (by rw [ihlen]; exact hgetlt i (by omega)) _ _
      · rw [getD_set_ne (fun hc => hne (hinj m i (by omega) (by omega) hc).symm)]
        exact ihA i (by omega)
  intro i hi
  have := (aux N (Nat.le_refl _)).1 i hi
  rw [invPermList, hlen]
  exact this

theorem invPermList_lt {order : List Nat} {N : Nat}
    (hperm : order.Perm (List.range N)) {n : Nat} (hn : n < N) :
    (invPermList order N).getD n 0 < N ∧
      order.getD ((invPermList order N).getD n 0) 0 = n := by
  have hlen : order.length = N := by
    rw [hperm.length_eq, List.length_range]
  have hmemn : n ∈ order := hperm.mem_iff.2 (List.mem_range.2 hn)
  obtain ⟨idx, hidx⟩ := List.mem_iff_get.1 hmemn
  have hidxN : (idx : Nat) < N := by
    have := idx.isLt
    omega
  have hget : order.getD (idx : Nat) 0 = n := by
    rw [getD_of_lt _ _ idx.isLt]
    exact hidx
  have h1 := invPermList_getD hperm idx hidxN
  rw [hget] at h1
  rw [h1]
  exact ⟨hidxN, hget⟩

/-- Inserting one element's singleton bucket: flat-mapping buckets where
exactly one key gets an extra head element is a permutation of consing it. -/
theorem flatMap_ite_cons_perm {α : Type} (l : List Nat) (a : Nat) (q : α)
    (F : Nat → List α) (hnd : l.Nodup) (ha : a ∈ l) :
    (l.flatMap (fun w => if a = w then q :: F w else F w)).Perm
      (q :: l.flatMap F) := by
  induction l with
  | nil => simp at ha
  | cons x xs ih =>
    rw [List.flatMap_cons, List.flatMap_cons]
    rcases eq_or_ne a x with hax | hax
    · rw [if_pos hax]
      have hnotin : x ∉ xs := (List.nodup_cons.1 hnd).1
      have hrest : xs.flatMap (fun w => if a = w then q :: F w else F w) =
          xs.flatMap F := by
        apply List.flatMap_congr
        intro w hw
        refine if_neg (fun hc => hnotin ?_)
        have hxw : x = w := hax.symm.trans hc
        rw [hxw]
        exact hw
      rw [hrest, List.cons_append]
    · rw [if_neg hax]
      have ha' : a ∈ xs := by
        rcases List.mem_cons.1 ha with hc | hc
        · exact absurd hc hax
        · exact hc
      have hih := ih (List.nodup_cons.1 hnd).2 ha'
      exact (hih.append_left (F x)).trans List.perm_middle

/-- Grouping pairs by source is a permutation of the original list. -/
theorem flatMap_filter_fst_perm {N : Nat} (ps : List (Nat × Nat))
    (h : ∀ p ∈ ps, p.1 < N) :
    ((List.range N).flatMap (fun w => ps.filter (fun p => p.1 = w))).Perm ps := by
  induction ps with
  | nil => simp
  | cons q rest ih =>
    have hq1 : q.1 < N := h q (List.mem_cons_self _ _)
    have hfil : ∀ w, (q :: rest).filter (fun p => p.1 = w) =
        if q.1 = w then q :: rest.filter (fun p => p.1 = w)
        else rest.filter (fun p => p.1 = w) := by
      intro w
      rw [List.filter_cons]
      by_cases hc : q.1 = w
      · rw [if_pos (by simpa using hc), if_pos hc]
      · rw [if_neg (by simpa using hc), if_neg hc]
    have hcongr : (List.range N).flatMap (fun w => (q :: rest).filter
        (fun p => p.1 = w)) =
        (List.range N).flatMap (fun w => if q.1 = w then
          q :: rest.filter (fun p => p.1 = w)
          else rest.filter (fun p => p.1 = w)) := by
      apply List.flatMap_congr
      intro w _
      exact hfil w
    rw [hcongr]
    exact (flatMap_ite_cons_perm _ q.1 q _ (List.nodup_range N)
      (List.mem_range.2 hq1)).trans
      ((ih (fun p hp => h p (List.mem_cons_of_mem _ hp))).cons q)

/-- `dn_pairs` of `katana::SortNodesByDegree`: (degree, node) per node. -/
def dnPairs (t : GraphTopology) : List (Nat × Nat) :=
  (List.range (numNodes t)).map (fun n => (degree t n, n))

/-- `std::greater<DegreeNodePair>` turned into the sort's "comes no later
than" relation: `ParallelSTL::sort` with strict comparator `greater` leaves
consecutive elements (x, y) with ¬greater(y, x), i.e. y lexicographically
≤ x. The pairs are pairwise distinct (distinct node ids in the second slot),
so the descending-sorted sequence is unique and `mergeSort` with this
relation is exactly the sort's result. -/
def pairGE (p q : Nat × Nat) : Bool :=
  decide (q.1 < p.1 ∨ (q.1 = p.1 ∧ q.2 ≤ p.2))

def sortedPairs (t : GraphTopology) : List (Nat × Nat) :=
  (dnPairs t).mergeSort pairGE

/-- `node id of dn_pairs[i]` after the sort. -/
def sortOrder (t : GraphTopology) : List Nat := (sortedPairs t).map Prod.snd

/-- `old_to_new_mapping[dn_pairs[i].second] = i`. -/
def oldToNew (t : GraphTopology) (n : Nat) : Nat :=
  (invPermList (sortOrder t) (numNodes t)).getD n 0

/-- `new_prefix_sum[index] = dn_pairs[index].first` (the stored degrees). -/
def newDegrees (t : GraphTopology) : List Nat := (sortedPairs t).map Prod.fst

/-- The relabeling writes of `SortNodesByDegree`, in traversal order: each
old edge (src,dst) becomes a write of `old_to_new[dst]` into
`old_to_new[src]`'s new region. -/
def sortWrites (t : GraphTopology) : List (Nat × Nat) :=
  (edgeList t).map (fun p => (oldToNew t p.1, oldToNew t p.2))

/-- `katana::SortNodesByDegree` (PropertyGraph.cpp): sort (degree, node)
pairs descending, build the old-to-new map and the new prefix sums, then
rewrite the topology, relabeling both edge endpoints. The C++ rewrites the
live arrays in place; the model returns the rewritten topology. -/
def sortNodesByDegree (t : GraphTopology) : GraphTopology :=
  { adj_indices := prefixSum (newDegrees t),
    dests := (scatterGo (sortWrites t) (startsList (newDegrees t))
      (List.replicate (numEdges t) 0)).2 }

theorem sortedPairs_perm (t : GraphTopology) :
    (sortedPairs t).Perm (dnPairs t) := List.mergeSort_perm _ _

theorem mem_sortedPairs {t : GraphTopology} {p : Nat × Nat}
    (hp : p ∈ sortedPairs t) : p.1 = degree t p.2 ∧ p.2 < numNodes t := by
  have := (sortedPairs_perm t).mem_iff.1 hp
  rw [dnPairs] at this
  obtain ⟨n, hn, rfl⟩ := List.mem_map.1 this
  exact ⟨rfl, List.mem_range.1 hn⟩

theorem sortOrder_perm (t : GraphTopology) :
    (sortOrder t).Perm (List.range (numNodes t)) := by
  have h1 : (sortOrder t).Perm ((dnPairs t).map Prod.snd) :=
    (sortedPairs_perm t).map Prod.snd
  have h2 : (dnPairs t).map Prod.snd = List.range (numNodes t) := by
    rw [dnPairs, List.map_map]
    have : (Prod.snd ∘ fun n => ((degree t n, n) : Nat × Nat)) = id := rfl
    rw [this, List.map_id]
  rw [h2] at h1
  exact h1

theorem length_sortedPairs (t : GraphTopology) :
    (sortedPairs t).length = numNodes t := by
  rw [(sortedPairs_perm t).length_eq, dnPairs, List.length_map, List.length_range]

theorem length_newDegrees (t : GraphTopology) :
    (newDegrees t).length = numNodes t := by
  rw [newDegrees, List.length_map, length_sortedPairs]

theorem sortOrder_getD {t : GraphTopology} {i : Nat} (hi : i < numNodes t) :
    (sortOrder t).getD i 0 = ((sortedPairs t).getD i (0, 0)).2 := by
  have h1 : i < (sortOrder t).length := by
    rw [sortOrder, List.length_map, length_sortedPairs]
    exact hi
  have h2 : i < (sortedPairs t).length := by rw [length_sortedPairs]; exact hi
  rw [getD_of_lt _ _ h1, getD_of_lt _ _ h2]
  simp [sortOrder]

theorem newDegrees_getD {t : GraphTopology} {i : Nat} (hi : i < numNodes t) :
    (newDegrees t).getD i 0 = degree t ((sortOrder t).getD i 0) := by
  have h1 : i < (newDegrees t).length := by rw [length_newDegrees]; exact hi
  have h2 : i < (sortedPairs t).length := by rw [length_sortedPairs]; exact hi
  rw [getD_of_lt _ _ h1, sortOrder_getD hi, getD_of_lt _ _ h2]
  have hmem : (sortedPairs t).get ⟨i, h2⟩ ∈ sortedPairs t := List.get_mem _ _ _
  have hdeg := (mem_sortedPairs hmem).1
  simp only [List.get_eq_getElem] at hdeg
  simp only [newDegrees, List.get_eq_getElem, List.getElem_map]
  rw [hdeg]

theorem oldToNew_lt {t : GraphTopology} {n : Nat} (hn : n < numNodes t) :
    oldToNew t n < numNodes t ∧
      (sortOrder t).getD (oldToNew t n) 0 = n :=
  invPermList_lt (sortOrder_perm t) hn

theorem oldToNew_sortOrder {t : GraphTopology} {i : Nat} (hi : i < numNodes t) :
    oldToNew t ((sortOrder t).getD i 0) = i :=
  invPermList_getD (sortOrder_perm t) i hi

theorem newDegrees_sum {t : GraphTopology} (h : validCSR t = true) :
    (newDegrees t).sum = numEdges t := by
  have hperm : (newDegrees t).Perm ((dnPairs t).map Prod.fst) :=
    (sortedPairs_perm t).map Prod.fst
  rw [hperm.sum_eq]
  have : (dnPairs t).map Prod.fst = (List.range (numNodes t)).map (degree t) := by
    rw [dnPairs, List.map_map]
    rfl
  rw [this]
  exact sum_degrees h

theorem sortWrites_filter_length {t : GraphTopology} (h : validCSR t = true)
    {w : Nat} (hw : w < numNodes t) :
    ((sortWrites t).filter (fun p => p.1 = w)).length = (newDegrees t).getD w 0 := by
  rw [← List.countP_eq_length_filter, sortWrites, List.countP_map]
  have hcongr : (edgeList t).countP
      ((fun p : Nat × Nat => decide (p.1 = w)) ∘
        (fun p => (oldToNew t p.1, oldToNew t p.2))) =
      (edgeList t).countP (fun p => decide (p.1 = (sortOrder t).getD w 0)) := by
    apply List.countP_congr
    intro p hp
    have hp1 : p.1 < numNodes t := mem_edgeList_fst hp
    simp only [Function.comp, decide_eq_true_eq]
    constructor
    · intro hc
      have hord := (oldToNew_lt hp1).2
      rw [hc] at hord
      exact hord.symm
    · intro hc
      rw [hc]
      exact oldToNew_sortOrder hw
  have hlt : (sortOrder t).getD w 0 < numNodes t := by
    have hlen : w < (sortOrder t).length := by
      rw [(sortOrder_perm t).length_eq, List.length_range]
      exact hw
    rw [getD_of_lt _ _ hlen]
    exact List.mem_range.1 ((sortOrder_perm t).mem_iff.1 (List.get_mem _ _ _))
  rw [hcongr, countP_fst_edgeList hlt, newDegrees_getD hw]

theorem sorted_numNodes (t : GraphTopology) :
    numNodes (sortNodesByDegree t) = numNodes t := by
  show (prefixSum (newDegrees t)).length = _
  rw [length_prefixSum, length_newDegrees]

theorem sorted_edgeBegin {t : GraphTopology} {w : Nat}
    (hw : w < (newDegrees t).length) :
    edgeBegin (sortNodesByDegree t) w = startOf (newDegrees t) w :=
  edgeBegin_of_prefixSum (newDegrees t) _ hw

theorem sorted_edgeEnd {t : GraphTopology} {w : Nat}
    (hw : w < (newDegrees t).length) :
    edgeEnd (sortNodesByDegree t) w = startOf (newDegrees t) (w + 1) :=
  edgeEnd_of_prefixSum (newDegrees t) _ hw

theorem sorted_degree {t : GraphTopology} {w : Nat}
    (hw : w < (newDegrees t).length) :
    degree (sortNodesByDegree t) w = (newDegrees t).getD w 0 :=
  degree_of_prefixSum (newDegrees t) _ hw

theorem sortWrites_targets {t : GraphTopology} :
    ∀ p ∈ sortWrites t, p.1 < numNodes t := by
  intro p hp
  rw [sortWrites] at hp
  obtain ⟨q, hq, rfl⟩ := List.mem_map.1 hp
  exact (oldToNew_lt (mem_edgeList_fst hq)).1

theorem sorted_outDests {t : GraphTopology} (h : validCSR t = true)
    {w : Nat} (hw : w < numNodes t) :
    outDests (sortNodesByDegree t) w =
      ((sortWrites t).filter (fun p => p.1 = w)).map Prod.snd := by
  have hclen : (newDegrees t).length = numNodes t := length_newDegrees t
  have hcounts : ∀ w', w' < (newDegrees t).length →
      ((sortWrites t).filter (fun p => p.1 = w')).length =
        (newDegrees t).getD w' 0 := by
    intro w' hw'
    exact sortWrites_filter_length h (hclen ▸ hw')
  have htargets : ∀ p ∈ sortWrites t, p.1 < (newDegrees t).length := by
    intro p hp
    rw [hclen]
    exact sortWrites_targets p hp
  have hreg := scatter_region (newDegrees t) (sortWrites t)
    (List.replicate (numEdges t) 0)
    (by rw [List.length_replicate, newDegrees_sum h]) hcounts htargets
  have hwN : w < (newDegrees t).length := by rw [hclen]; exact hw
  have hdeg : degree (sortNodesByDegree t) w = (newDegrees t).getD w 0 :=
    sorted_degree hwN
  apply ext_getD
  · rw [length_outDests, hdeg, List.length_map, hcounts w hwN]
  · intro i hi
    have hideg : i < degree (sortNodesByDegree t) w := by
      rw [← length_outDests]
      exact hi
    have hic : i < (newDegrees t).getD w 0 := by rw [← hdeg]; exact hideg
    rw [outDests_getD hideg, sorted_edgeBegin hwN]
    exact hreg w hwN i hic

theorem pairGE_trans : ∀ a b c : Nat × Nat,
    pairGE a b = true → pairGE b c = true → pairGE a c = true := by
  intro a b c hab hbc
  simp only [pairGE, decide_eq_true_eq] at *
  omega

theorem pairGE_total : ∀ a b : Nat × Nat, (pairGE a b || pairGE b a) = true := by
  intro a b
  simp only [pairGE, Bool.or_eq_true, decide_eq_true_eq]
  omega

theorem sortedPairs_sorted (t : GraphTopology) :
    List.Pairwise (fun a b => pairGE a b = true) (sortedPairs t) :=
  List.sorted_mergeSort pairGE_trans pairGE_total (dnPairs t)

/-- C6: After `SortNodesByDegree`, node degrees are non-increasing in node
id, and the multiset of (source-degree, destination-degree) pairs over all
edges is preserved under the induced relabeling. -/
theorem C6_sort_nodes_by_degree {t : GraphTopology} (h : validCSR t = true) :
    (∀ n : Nat, n + 1 < numNodes (sortNodesByDegree t) →
        degree (sortNodesByDegree t) (n + 1) ≤ degree (sortNodesByDegree t) n) ∧
      ((edgeList (sortNodesByDegree t)).map
          (fun p => (degree (sortNodesByDegree t) p.1,
            degree (sortNodesByDegree t) p.2))).Perm
        ((edgeList t).map (fun p => (degree t p.1, degree t p.2))) := by
  have hNN : numNodes (sortNodesByDegree t) = numNodes t := sorted_numNodes t
  have hclen : (newDegrees t).length = numNodes t := length_newDegrees t
  constructor
  · intro n hn1
    have hn1' : n + 1 < (newDegrees t).length := by rw [hclen, ← hNN]; exact hn1
    have hn' : n < (newDegrees t).length := by omega
    rw [sorted_degree hn1', sorted_degree hn']
    have hsp : n + 1 < (sortedPairs t).length := by
      rw [length_sortedPairs, ← hclen]
      exact hn1'
    have hsp' : n < (sortedPairs t).length := by omega
    have hREL := (List.pairwise_iff_get.1 (sortedPairs_sorted t))
      ⟨n, hsp'⟩ ⟨n + 1, hsp⟩ (by simp)
    simp only [pairGE, decide_eq_true_eq] at hREL
    have hgd1 : (newDegrees t).getD (n + 1) 0 = ((sortedPairs t).get ⟨n + 1, hsp⟩).1 := by
      rw [getD_of_lt _ _ hn1']
      simp [newDegrees]
    have hgd2 : (newDegrees t).getD n 0 = ((sortedPairs t).get ⟨n, hsp'⟩).1 := by
      rw [getD_of_lt _ _ hn']
      simp [newDegrees]
    rw [hgd1, hgd2]
    rcases hREL with hlt | ⟨heq, _⟩
    · omega
    · omega
  · -- the edge list of the result is a permutation of the relabeled writes
    have hbucket : ∀ w, w < numNodes t →
        (outDests (sortNodesByDegree t) w).map (fun d => (w, d)) =
          (sortWrites t).filter (fun p => p.1 = w) := by
      intro w hw
      rw [sorted_outDests h hw, List.map_map]
      have hcomp : ((fun d => (w, d)) ∘ Prod.snd) = fun p : Nat × Nat => (w, p.2) :=
        rfl
      rw [hcomp, map_fst_snd_filter]
    have hEL : edgeList (sortNodesByDegree t) =
        (List.range (numNodes t)).flatMap
          (fun w => (sortWrites t).filter (fun p => p.1 = w)) := by
      rw [edgeList, hNN]
      apply List.flatMap_congr
      intro w hw
      exact hbucket w (List.mem_range.1 hw)
    have hperm1 : (edgeList (sortNodesByDegree t)).Perm (sortWrites t) := by
      rw [hEL]
      exact flatMap_filter_fst_perm (sortWrites t) sortWrites_targets
    have hperm2 := hperm1.map
      (fun p : Nat × Nat => (degree (sortNodesByDegree t) p.1,
        degree (sortNodesByDegree t) p.2))
    have hmapeq : (sortWrites t).map
        (fun p : Nat × Nat => (degree (sortNodesByDegree t) p.1,
          degree (sortNodesByDegree t) p.2)) =
        (edgeList t).map (fun p => (degree t p.1, degree t p.2)) := by
      rw [sortWrites, List.map_map]
      apply List.map_congr_left
      intro p hp
      have hp1 : p.1 < numNodes t := mem_edgeList_fst hp
      have hp2 : p.2 < numNodes t := mem_edgeList_snd h hp
      have hdeg : ∀ n, n < numNodes t →
          degree (sortNodesByDegree t) (oldToNew t n) = degree t n := by
        intro n hn
        have hmlt := (oldToNew_lt hn).1
        have hmlen : oldToNew t n < (newDegrees t).length := by
          rw [hclen]
          exact hmlt
        rw [sorted_degree hmlen, newDegrees_getD hmlt, (oldToNew_lt hn).2]
      simp only [Function.comp]
      rw [hdeg p.1 hp1, hdeg p.2 hp2]
    rw [← hmapeq]
    exact hperm2

theorem C6_witness : validCSR exTopo = true ∧
    ((∀ n : Nat, n + 1 < numNodes (sortNodesByDegree exTopo) →
        degree (sortNodesByDegree exTopo) (n + 1) ≤
          degree (sortNodesByDegree exTopo) n) ∧
      ((edgeList (sortNodesByDegree exTopo)).map
          (fun p => (degree (sortNodesByDegree exTopo) p.1,
            degree (sortNodesByDegree exTopo) p.2))).Perm
        ((edgeList exTopo).map (fun p => (degree exTopo p.1, degree exTopo p.2)))) :=
  ⟨by decide, C6_sort_nodes_by_degree (by decide)⟩

/-- `ShuffleTopology::MakeSortedByDegree`'s comparator (GraphTopology.cpp):
`if (d1 == d2) return d1 < d2; return d1 < d2;` — the tie branch is dead
code; both branches return the ascending strict comparison of degrees. -/
def degreeLt (seed : GraphTopology) (i1 i2 : Nat) : Bool :=
  if degree seed i1 = degree seed i2 then decide (degree seed i1 < degree seed i2)
  else decide (degree seed i1 < degree seed i2)

/-- `MakeNodeSortedTopo`: `node_prop_indices` = iota over node ids, then
`ParallelSTL::sort` with the strict comparator. A correct sort leaves
consecutive elements (x, y) with ¬cmp(y, x); `mergeSort` with that
complement relation is one valid result (ties are placed arbitrarily by the
non-stable parallel sort; the degree sequence is the same for all valid
results). -/
def nodeOrder (seed : GraphTopology) : List Nat :=
  (List.range (numNodes seed)).mergeSort (fun i j => ! degreeLt seed j i)

/-- `degrees[i] = seed.degree(node_prop_indices[i])`. -/
def shuffleDegrees (seed : GraphTopology) : List Nat :=
  (nodeOrder seed).map (degree seed)

/-- `old_to_new_map[node_prop_indices[i]] = i`. -/
def shuffleOldToNew (seed : GraphTopology) (n : Nat) : Nat :=
  (invPermList (nodeOrder seed) (numNodes seed)).getD n 0

/-- The relabeling writes of `MakeNodeSortedTopo`'s edge pass. -/
def shuffleWrites (seed : GraphTopology) : List (Nat × Nat) :=
  (edgeList seed).map
    (fun p => (shuffleOldToNew seed p.1, shuffleOldToNew seed p.2))

/-- `ShuffleTopology::MakeSortedByDegree` via `MakeNodeSortedTopo`
(GraphTopology.h): sort node ids by the comparator, gather the degrees in the
new order, prefix-sum them in place as the new adjacency index, and reinsert
every edge with both endpoints translated through the old-to-new map. Only
the adjacency structure of the resulting ShuffleTopology is modelled here
(`node_prop_indices` itself is `nodeOrder`). -/
def makeSortedByDegree (seed : GraphTopology) : GraphTopology :=
  { adj_indices := prefixSum (shuffleDegrees seed),
    dests := (scatterGo (shuffleWrites seed) (startsList (shuffleDegrees seed))
      (List.replicate (numEdges seed) 0)).2 }

theorem degreeLt_eq (seed : GraphTopology) (i1 i2 : Nat) :
    degreeLt seed i1 i2 = decide (degree seed i1 < degree seed i2) := by
  rw [degreeLt]
  by_cases h : degree seed i1 = degree seed i2
  · rw [if_pos h]
  · rw [if_neg h]

theorem length_nodeOrder (seed : GraphTopology) :
    (nodeOrder seed).length = numNodes seed := by
  rw [nodeOrder, (List.mergeSort_perm _ _).length_eq, List.length_range]

theorem length_shuffleDegrees (seed : GraphTopology) :
    (shuffleDegrees seed).length = numNodes seed := by
  rw [shuffleDegrees, List.length_map, length_nodeOrder]

theorem nodeOrder_sorted (seed : GraphTopology) :
    List.Pairwise (fun i j => degree seed i ≤ degree seed j) (nodeOrder seed) := by
  have h := @List.sorted_mergeSort Nat (fun i j => ! degreeLt seed j i)
    (fun a b c hab hbc => by
      simp only [degreeLt_eq, Bool.not_eq_true', decide_eq_false_iff_not,
        Nat.not_lt] at hab hbc ⊢
      omega)
    (fun a b => by
      simp only [Bool.or_eq_true, degreeLt_eq, Bool.not_eq_true',
        decide_eq_false_iff_not, Nat.not_lt]
      omega)
    (List.range (numNodes seed))
  rw [← nodeOrder] at h
  apply List.Pairwise.imp ?_ h
  intro i j hij
  simp only [degreeLt_eq, Bool.not_eq_true', decide_eq_false_iff_not,
    Nat.not_lt] at hij
  exact hij

/-- C10: `ShuffleTopology::MakeSortedByDegree` produces a topology whose
per-node degree sequence is non-decreasing in node id (ascending by degree):
the comparator orders node ids by strictly smaller degree and its tie branch
never distinguishes equal-degree nodes — the opposite direction from the
descending order produced by the free function `SortNodesByDegree`. -/
theorem C10_make_sorted_by_degree {seed : GraphTopology}
    (h : validCSR seed = true) :
    ∀ n : Nat, n + 1 < numNodes (makeSortedByDegree seed) →
      degree (makeSortedByDegree seed) n ≤ degree (makeSortedByDegree seed) (n + 1) := by
  intro n hn1
  have hNN : numNodes (makeSortedByDegree seed) = numNodes seed := by
    show (prefixSum (shuffleDegrees seed)).length = _
    rw [length_prefixSum, length_shuffleDegrees]
  have hn1' : n + 1 < (shuffleDegrees seed).length := by
    rw [length_shuffleDegrees, ← hNN]
    exact hn1
  have hn' : n < (shuffleDegrees seed).length := by omega
  have hd1 : degree (makeSortedByDegree seed) n = (shuffleDegrees seed).getD n 0 :=
    degree_of_prefixSum (shuffleDegrees seed) _ hn'
  have hd2 : degree (makeSortedByDegree seed) (n + 1) =
      (shuffleDegrees seed).getD (n + 1) 0 :=
    degree_of_prefixSum (shuffleDegrees seed) _ hn1'
  rw [hd1, hd2]
  have hno1 : n + 1 < (nodeOrder seed).length := by
    rw [length_nodeOrder, ← length_shuffleDegrees]
    exact hn1'
  have hno' : n < (nodeOrder seed).length := by omega
  have hREL := (List.pairwise_iff_get.1 (nodeOrder_sorted seed))
    ⟨n, hno'⟩ ⟨n + 1, hno1⟩ (by simp)
  have hg1 : (shuffleDegrees seed).getD n 0 =
      degree seed ((nodeOrder seed).get ⟨n, hno'⟩) := by
    rw [getD_of_lt _ _ hn']
    simp [shuffleDegrees]
  have hg2 : (shuffleDegrees seed).getD (n + 1) 0 =
      degree seed ((nodeOrder seed).get ⟨n + 1, hno1⟩) := by
    rw [getD_of_lt _ _ hn1']
    simp [shuffleDegrees]
  rw [hg1, hg2]
  exact hREL

theorem C10_witness : validCSR exTopo = true ∧
    (∀ n : Nat, n + 1 < numNodes (makeSortedByDegree exTopo) →
      degree (makeSortedByDegree exTopo) n ≤
        degree (makeSortedByDegree exTopo) (n + 1)) :=
  ⟨by decide, C10_make_sorted_by_degree (by decide)⟩

/-- `EdgeShuffleTopology::EdgeSortKind` (GraphTopology.h). -/
inductive EdgeSortKind where
  | kAny
  | kSortedByDestID
  | kSortedByEdgeType
  | kSortedByNodeType
deriving DecidableEq, Repr

/-- `EdgeShuffleTopology` (GraphTopology.h): the base CSR arrays plus the
per-edge back-reference to the original edge's property slot and the sort
state. (`is_valid_` and the transpose state play no role in the claims
below.) -/
structure EdgeShuffleTopology where
  topo : GraphTopology
  edge_prop_indices : List Nat
  edge_sort_state : EdgeSortKind
deriving DecidableEq, Repr

/-- `EdgeShuffleTopology::has_edges_sorted_by`. -/
def has_edges_sorted_by (t : EdgeShuffleTopology) (kind : EdgeSortKind) : Bool :=
  if kind = EdgeSortKind.kAny then true else t.edge_sort_state = kind

/-- The contract of `std::lower_bound` with `EdgeDestComparator` over node
src's edge range: the first position whose destination is not `< dst` (the
standard requires the range partitioned by the predicate, which holds when
the edges are sorted by destination). -/
def lowerBound (t : EdgeShuffleTopology) (src dst : Nat) : Nat :=
  edgeBegin t.topo src +
    (edgesOf t.topo src).countP (fun ed => decide (edge_dest t.topo ed < dst))

/-- The contract of `std::upper_bound` (second half of `std::equal_range`). -/
def upperBound (t : EdgeShuffleTopology) (src dst : Nat) : Nat :=
  edgeBegin t.topo src +
    (edgesOf t.topo src).countP (fun ed => decide (edge_dest t.topo ed ≤ dst))

/-- `EdgeShuffleTopology::find_edge` (GraphTopology.cpp). For degree ≤ 64 a
linear `std::find_if`; above that a `std::lower_bound` followed by
`return edge_dest(*iter) == dst ? iter : e_range.end();`, which dereferences
`iter` even when it equals `e_range.end()`. The returned edge id is the
iterator position (`edgeEnd` = `edges(src).end()` means not-found); `none`
models the fatal `KATANA_LOG_DEBUG_ASSERT(edge_id < dests_.size())` inside
`edge_dest` when `*iter` reads `dests_[num_edges]`. -/
def find_edge (t : EdgeShuffleTopology) (src dst : Nat) : Option Nat :=
  let e := edgeEnd t.topo src
  if degree t.topo src ≤ 64 then
    some (match (edgesOf t.topo src).find?
        (fun ed => decide (edge_dest t.topo ed = dst)) with
      | some ed => ed
      | none => e)
  else
    let it := lowerBound t src dst
    if it < numEdges t.topo then
      some (if edge_dest t.topo it = dst then it else e)
    else
      none

/-- `EdgeShuffleTopology::find_edges` (GraphTopology.cpp). Returns the edge
range as a (begin, end) pair of edge ids. An empty source range is returned
as is; otherwise the code executes
`KATANA_LOG_VASSERT(!has_edges_sorted_by(kSortedByDestID), "Must have edges
sorted by kSortedByDestID")` — fatal exactly when the condition is false,
i.e. exactly when the topology IS sorted by destination id (`none` models
the fatal assertion) — and only in the unsorted state falls through to
`std::equal_range` (modelled by its sorted-input contract; on an unsorted
range the standard gives no guarantee). -/
def find_edges (t : EdgeShuffleTopology) (src dst : Nat) : Option (Nat × Nat) :=
  let b := edgeBegin t.topo src
  let e := edgeEnd t.topo src
  if b = e then
    some (b, e)
  else if has_edges_sorted_by t EdgeSortKind.kSortedByDestID then
    none
  else
    let lo := lowerBound t src dst
    let hi := upperBound t src dst
    if lo = e ∨ ¬(edge_dest t.topo lo = dst) then some (e, e)
    else some (lo, hi)

/-- A dest-sorted two-node topology with the single edge 0 → 1. -/
def exSorted : EdgeShuffleTopology :=
  { topo := { adj_indices := [1, 1], dests := [1] },
    edge_prop_indices := [0],
    edge_sort_state := EdgeSortKind.kSortedByDestID }

/-- C2 (code bug): the claim matches `find_edges`'s own assertion message
("Must have edges sorted by kSortedByDestID"), but the assertion condition is
inverted. On a valid dest-sorted topology whose source has an edge, the call
is fatal (`none`); with the sort state reset to `kAny` (unsorted) the very
same call completes instead of failing. -/
theorem C2_find_edges_assert_inverted :
    validCSR exSorted.topo = true ∧
      has_edges_sorted_by exSorted EdgeSortKind.kSortedByDestID = true ∧
      degree exSorted.topo 0 = 1 ∧
      find_edges exSorted 0 1 = none ∧
      find_edges { exSorted with edge_sort_state := EdgeSortKind.kAny } 0 1 =
        some (0, 1) := by
  decide

/-- A dest-sorted one-node topology with 65 parallel self-loops: the source
range has more than 64 edges (binary-search branch) and ends at the last
slot of the destination array. -/
def exBig : EdgeShuffleTopology :=
  { topo := { adj_indices := [65], dests := List.replicate 65 0 },
    edge_prop_indices := List.range 65,
    edge_sort_state := EdgeSortKind.kSortedByDestID }

/-- C3 (code bug): for a dest-sorted topology, an absent destination larger
than every destination of a >64-degree source whose range ends at the array
end makes `find_edge` dereference the end iterator: `lower_bound` returns
`edges(src).end() = num_edges` and `edge_dest(*iter)` reads
`dests_[num_edges]`, violating `edge_dest`'s own bound assertion (modelled as
`none`) instead of returning `edges(src).end()` without an out-of-bounds
read. -/
theorem C3_find_edge_oob :
    validCSR exBig.topo = true ∧
      has_edges_sorted_by exBig EdgeSortKind.kSortedByDestID = true ∧
      degree exBig.topo 0 = 65 ∧
      (∀ ed ∈ edgesOf exBig.topo 0, edge_dest exBig.topo ed < 1) ∧
      find_edge exBig 0 1 = none := by
  decide

/-- A u64 value as two consecutive u32 words, low word first. The file
buffer is modelled as a list of 32-bit words; its byte size is 4 · length. -/
def encU64 (v : Nat) : List Nat := [v % 2 ^ 32, v / 2 ^ 32]

/-- `WriteTopology` (PropertyGraph.cpp): the header u64s {version = 1,
sizeof_edge_data = 0, num_nodes, num_edges}, then the adjacency index as
u64[num_nodes], then the destinations as u32[num_edges]; no padding is
written. -/
def writeTopology (t : GraphTopology) : List Nat :=
  encU64 1 ++ encU64 0 ++ encU64 (numNodes t) ++ encU64 (numEdges t) ++
    t.adj_indices.flatMap encU64 ++ t.dests

/-- Result of a load: a structured error (`katana::Result` error), a fatal
assertion, or the mapped topology. -/
inductive LoadResult where
  | ok (t : GraphTopology)
  | err
  | fatal
deriving DecidableEq, Repr

/-- Read the u64 at u64-index `i` of the buffer. -/
def decU64 (buf : List Nat) (i : Nat) : Nat :=
  buf.getD (2 * i) 0 + 2 ^ 32 * buf.getD (2 * i + 1) 0

/-- `CheckTopology` (PropertyGraph.cpp): no adjacency entry exceeds the edge
count and every destination is a valid node id. -/
def checkTopology (out_indices : List Nat) (num_nodes : Nat)
    (out_dests : List Nat) (num_edges : Nat) : Bool :=
  ((List.range num_nodes).all fun n => decide (out_indices.getD n 0 ≤ num_edges)) &&
    ((List.range num_edges).all fun e => decide (out_dests.getD e 0 < num_nodes))

/-- `MapTopology` (PropertyGraph.cpp): reject a buffer of fewer than 4 bytes,
a version other than 1, or a buffer smaller than
`GetGraphSize = (4 + num_nodes)*8 + num_edges*4` bytes with an error result;
then extract `out_indices` (u64 words 4..4+N) and `out_dests` (u32 words
from word offset 8+2N) and build the topology. The
`KATANA_LOG_DEBUG_ASSERT(CheckTopology(...))` guard is modelled as a fatal
result when the check fails (debug-build semantics, spec section 7). -/
def mapTopology (buf : List Nat) : LoadResult :=
  if 4 * buf.length < 4 then LoadResult.err
  else if decU64 buf 0 ≠ 1 then LoadResult.err
  else
    let N := decU64 buf 2
    let E := decU64 buf 3
    if 4 * buf.length < (4 + N) * 8 + E * 4 then LoadResult.err
    else
      let adj := (List.range N).map (fun n => decU64 buf (4 + n))
      let dests := (List.range E).map (fun e => buf.getD (8 + 2 * N + e) 0)
      if checkTopology adj N dests E then
        LoadResult.ok { adj_indices := adj, dests := dests }
      else LoadResult.fatal

/-- C9: a buffer accepted by the loader has version 1, is at least the
declared size, and satisfies both validation bounds: every adjacency index
is at most the edge count and every destination is a valid node id. A
malformed buffer is never accepted silently (it yields `err` or `fatal`). -/
theorem C9_load_validates (buf : List Nat) (t : GraphTopology) :
    mapTopology buf = LoadResult.ok t →
      decU64 buf 0 = 1 ∧
      (4 + numNodes t) * 8 + numEdges t * 4 ≤ 4 * buf.length ∧
      (∀ n, n < numNodes t → t.adj_indices.getD n 0 ≤ numEdges t) ∧
      (∀ e, e < numEdges t → edge_dest t e < numNodes t) := by
  intro h
  rw [mapTopology] at h
  by_cases h1 : 4 * buf.length < 4
  · rw [if_pos h1] at h
    exact absurd h (by simp)
  rw [if_neg h1] at h
  by_cases h2 : decU64 buf 0 ≠ 1
  · rw [if_pos h2] at h
    exact absurd h (by simp)
  rw [if_neg h2] at h
  simp only at h
  by_cases h3 : 4 * buf.length < (4 + decU64 buf 2) * 8 + decU64 buf 3 * 4
  · rw [if_pos h3] at h
    exact absurd h (by simp)
  rw [if_neg h3] at h
  by_cases h4 : checkTopology
      ((List.range (decU64 buf 2)).map (fun n => decU64 buf (4 + n)))
      (decU64 buf 2)
      ((List.range (decU64 buf 3)).map
        (fun e => buf.getD (8 + 2 * decU64 buf 2 + e) 0))
      (decU64 buf 3) = true
  · rw [if_pos h4] at h
    set adjP := List.map (fun n => decU64 buf (4 + n)) (List.range (decU64 buf 2))
    set destsP := List.map (fun e => buf.getD (8 + 2 * decU64 buf 2 + e) 0)
      (List.range (decU64 buf 3))
    have ht : t = { adj_indices := adjP, dests := destsP } := by
      cases h
      rfl
    have hNt : numNodes t = decU64 buf 2 := by
      rw [ht]
      show (_ : List Nat).length = _
      rw [List.length_map, List.length_range]
    have hEt : numEdges t = decU64 buf 3 := by
      rw [ht]
      show (_ : List Nat).length = _
      rw [List.length_map, List.length_range]
    rw [checkTopology, Bool.and_eq_true, List.all_eq_true, List.all_eq_true] at h4
    refine ⟨not_not.1 h2, by rw [hNt, hEt]; omega, ?_, ?_⟩
    · intro n hn
      have := of_decide_eq_true (h4.1 n (List.mem_range.2 (by rw [← hNt]; exact hn)))
      rw [hEt]
      rw [ht]
      exact this
    · intro e he
      have := of_decide_eq_true (h4.2 e (List.mem_range.2 (by rw [← hEt]; exact he)))
      rw [hNt]
      rw [ht]
      exact this
  · rw [if_neg h4] at h
    exact absurd h (by simp)

theorem C9_witness :
    mapTopology [1, 0, 0, 0, 0, 0, 0, 0] =
        LoadResult.ok { adj_indices := [], dests := [] } ∧
      (decU64 [1, 0, 0, 0, 0, 0, 0, 0] 0 = 1 ∧
        (4 + numNodes { adj_indices := ([] : List Nat), dests := ([] : List Nat) }) * 8 +
            numEdges { adj_indices := ([] : List Nat), dests := ([] : List Nat) } * 4 ≤
          4 * ([1, 0, 0, 0, 0, 0, 0, 0] : List Nat).length ∧
        (∀ n, n < numNodes { adj_indices := ([] : List Nat), dests := ([] : List Nat) } →
          ([] : List Nat).getD n 0 ≤
            numEdges { adj_indices := ([] : List Nat), dests := ([] : List Nat) }) ∧
        (∀ e, e < numEdges { adj_indices := ([] : List Nat), dests := ([] : List Nat) } →
          edge_dest { adj_indices := ([] : List Nat), dests := ([] : List Nat) } e <
            numNodes { adj_indices := ([] : List Nat), dests := ([] : List Nat) })) :=
  ⟨by decide, C9_load_validates _ _ (by decide)⟩

theorem flatMap_encU64_length (l : List Nat) :
    (l.flatMap encU64).length = 2 * l.length := by
  induction l with
  | nil => rfl
  | cons x xs ih =>
    rw [List.flatMap_cons, List.length_append, ih]
    show 2 + 2 * xs.length = 2 * (xs.length + 1)
    omega

theorem flatMap_encU64_getD (l : List Nat) :
    ∀ n, n < l.length →
      (l.flatMap encU64).getD (2 * n) 0 = l.getD n 0 % 2 ^ 32 ∧
      (l.flatMap encU64).getD (2 * n + 1) 0 = l.getD n 0 / 2 ^ 32 := by
  induction l with
  | nil =>
    intro n hn
    simp at hn
  | cons x xs ih =>
    intro n hn
    cases n with
    | zero => exact ⟨rfl, rfl⟩
    | succ m =>
      have hm : m < xs.length := by simpa using hn
      have hlen2 : (encU64 x).length = 2 := rfl
      rw [List.flatMap_cons]
      constructor
      · rw [List.getD_append_right (encU64 x) _ 0 _ (by rw [hlen2]; omega)]
        have harith : 2 * (m + 1) - (encU64 x).length = 2 * m := by
          rw [hlen2]
          omega
        rw [harith]
        exact (ih m hm).1
      · rw [List.getD_append_right (encU64 x) _ 0 _ (by rw [hlen2]; omega)]
        have harith : 2 * (m + 1) + 1 - (encU64 x).length = 2 * m + 1 := by
          rw [hlen2]
          omega
        rw [harith]
        exact (ih m hm).2

theorem checkTopology_of_valid {t : GraphTopology} (h : validCSR t = true) :
    checkTopology t.adj_indices (numNodes t) t.dests (numEdges t) = true := by
  rw [checkTopology, Bool.and_eq_true, List.all_eq_true, List.all_eq_true]
  constructor
  · intro n hn
    apply decide_eq_true
    have hnN := List.mem_range.1 hn
    have := edgeEnd_le_numEdges h hnN
    rw [edgeEnd] at this
    exact this
  · intro e he
    apply decide_eq_true
    exact validCSR_dest_lt h (List.mem_range.1 he)

/-- C4: writing a valid topology in the version-1 binary format and
reloading the bytes succeeds and yields a topology equal to the original
(`Equals` = true). The bound hypotheses record the u32 node-id / u64
edge-count container types of the format. -/
theorem C4_write_map_roundtrip {t : GraphTopology} (h : validCSR t = true)
    (hN : numNodes t < 2 ^ 32) (hE : numEdges t < 2 ^ 64) :
    ∃ t2, mapTopology (writeTopology t) = LoadResult.ok t2 ∧
      Equals t2 t = true := by
  set buf := writeTopology t with hbuf
  set hdr : List Nat := [1 % 2 ^ 32, 1 / 2 ^ 32, 0 % 2 ^ 32, 0 / 2 ^ 32,
    numNodes t % 2 ^ 32, numNodes t / 2 ^ 32,
    numEdges t % 2 ^ 32, numEdges t / 2 ^ 32] with hhdr
  have hsplit : buf = hdr ++ (t.adj_indices.flatMap encU64 ++ t.dests) := by
    rw [hbuf, writeTopology, hhdr]
    simp [encU64, List.append_assoc]
  have hlenhdr : hdr.length = 8 := by rw [hhdr]; rfl
  have hlen : buf.length = 8 + 2 * numNodes t + numEdges t := by
    rw [hsplit, List.length_append, List.length_append, hlenhdr,
      flatMap_encU64_length]
    show 8 + (2 * t.adj_indices.length + t.dests.length) =
      8 + 2 * t.adj_indices.length + t.dests.length
    omega
  have hget : ∀ i, i < 8 → buf.getD i 0 = hdr.getD i 0 := by
    intro i hi
    rw [hsplit]
    exact List.getD_append _ _ _ _ (by rw [hlenhdr]; omega)
  have hdec0 : decU64 buf 0 = 1 := by
    rw [decU64, hget (2 * 0) (by omega), hget (2 * 0 + 1) (by omega), hhdr]
    show 1 % 2 ^ 32 + 2 ^ 32 * (1 / 2 ^ 32) = 1
    exact Nat.mod_add_div 1 (2 ^ 32)
  have hdec2 : decU64 buf 2 = numNodes t := by
    rw [decU64, hget (2 * 2) (by omega), hget (2 * 2 + 1) (by omega), hhdr]
    show numNodes t % 2 ^ 32 + 2 ^ 32 * (numNodes t / 2 ^ 32) = numNodes t
    exact Nat.mod_add_div _ _
  have hdec3 : decU64 buf 3 = numEdges t := by
    rw [decU64, hget (2 * 3) (by omega), hget (2 * 3 + 1) (by omega), hhdr]
    show numEdges t % 2 ^ 32 + 2 ^ 32 * (numEdges t / 2 ^ 32) = numEdges t
    exact Nat.mod_add_div _ _
  have hadj : List.map (fun n => decU64 buf (4 + n)) (List.range (numNodes t)) =
      t.adj_indices := by
    apply List.ext_get
    · rw [List.length_map, List.length_range]
      rfl
    · intro i h1 h2
      simp only [List.get_eq_getElem, List.getElem_map, List.getElem_range]
      have hiN : i < numNodes t := h2
      have e1 : buf.getD (2 * (4 + i)) 0 = t.adj_indices.getD i 0 % 2 ^ 32 := by
        rw [hsplit, List.getD_append_right hdr _ 0 _ (by rw [hlenhdr]; omega)]
        have harith : 2 * (4 + i) - hdr.length = 2 * i := by rw [hlenhdr]; omega
        rw [harith, List.getD_append _ _ _ _ (by rw [flatMap_encU64_length]; omega)]
        exact (flatMap_encU64_getD t.adj_indices i hiN).1
      have e2 : buf.getD (2 * (4 + i) + 1) 0 = t.adj_indices.getD i 0 / 2 ^ 32 := by
        rw [hsplit, List.getD_append_right hdr _ 0 _ (by rw [hlenhdr]; omega)]
        have harith : 2 * (4 + i) + 1 - hdr.length = 2 * i + 1 := by
          rw [hlenhdr]
          omega
        rw [harith, List.getD_append _ _ _ _ (by rw [flatMap_encU64_length]; omega)]
        exact (flatMap_encU64_getD t.adj_indices i hiN).2
      rw [decU64, e1, e2, Nat.mod_add_div, getD_of_lt _ _ h2]
      rfl
  have hdests : List.map (fun e => buf.getD (8 + 2 * numNodes t + e) 0)
      (List.range (numEdges t)) = t.dests := by
    apply List.ext_get
    · rw [List.length_map, List.length_range]
      rfl
    · intro i h1 h2
      simp only [List.get_eq_getElem, List.getElem_map, List.getElem_range]
      have hiE : i < numEdges t := h2
      rw [hsplit, List.getD_append_right hdr _ 0 _ (by rw [hlenhdr]; omega)]
      have harith : 8 + 2 * numNodes t + i - hdr.length = 2 * numNodes t + i := by
        rw [hlenhdr]
        omega
      rw [harith]
      rw [List.getD_append_right (t.adj_indices.flatMap encU64) t.dests 0
        (2 * numNodes t + i)
        (by
          rw [flatMap_encU64_length]
          show 2 * numNodes t ≤ 2 * numNodes t + i
          omega)]
      have harith2 : 2 * numNodes t + i - (t.adj_indices.flatMap encU64).length =
          i := by
        rw [flatMap_encU64_length]
        show 2 * t.adj_indices.length + i - 2 * t.adj_indices.length = i
        omega
      rw [harith2, getD_of_lt _ _ h2]
      rfl
  have hok : mapTopology buf =
      LoadResult.ok { adj_indices := t.adj_indices, dests := t.dests } := by
    rw [mapTopology]
    rw [if_neg (show ¬4 * buf.length < 4 by omega)]
    rw [if_neg (show ¬decU64 buf 0 ≠ 1 by rw [hdec0]; simp)]
    simp only
    rw [if_neg (show ¬4 * buf.length < (4 + decU64 buf 2) * 8 + decU64 buf 3 * 4 by
      rw [hdec2, hdec3]
      omega)]
    rw [hdec2, hdec3, hadj, hdests, if_pos (checkTopology_of_valid h)]
  refine ⟨{ adj_indices := t.adj_indices, dests := t.dests }, hok, ?_⟩
  simp [Equals, numNodes, numEdges]

theorem C4_witness : validCSR exTopo = true ∧ numNodes exTopo < 2 ^ 32 ∧
    numEdges exTopo < 2 ^ 64 ∧
    (∃ t2, mapTopology (writeTopology exTopo) = LoadResult.ok t2 ∧
      Equals t2 exTopo = true) :=
  ⟨by decide, by decide, by decide,
    C4_write_map_roundtrip (by decide) (by decide) (by decide)⟩

/-! ## CondensedTypeIDMap (`MakeFromEdgeTypes`)

Edge types are modelled as naturals. A `std::set<EntityType>` is modelled by
its contents: a strictly ascending list, with insertion keeping order and
skipping duplicates. `MakeFromEdgeTypes` collects each thread's edge types
into a per-thread set, merges all per-thread sets into one ordered set, and
assigns indices `0, 1, …` in that (ascending) order: `index_to_type_map_` is
the merged list itself, and `type_to_index_map_[t]` is `t`'s position in it.
The thread scheduling is modelled by an arbitrary partition `chunks` of the
edge-type multiset into per-thread insertion sequences. -/

def setInsert : List Nat → Nat → List Nat
  | [], x => [x]
  | y :: ys, x =>
      if x < y then x :: y :: ys
      else if x = y then y :: ys
      else y :: setInsert ys x

/-- The contents of a `std::set` after inserting the elements of `l`. -/
def setOfList (l : List Nat) : List Nat := l.foldl setInsert []

/-- `CondensedTypeIDMap::MakeFromEdgeTypes`: per-thread sets, merged into one
ordered `mergedSet`; the result is `index_to_type_map_` (type of index i at
position i). -/
def makeFromEdgeTypes (chunks : List (List Nat)) : List Nat :=
  ((chunks.map setOfList).flatten).foldl setInsert []

/-- `CondensedTypeIDMap::GetType(index)` = `index_to_type_map_[index]`. -/
def GetType (m : List Nat) (i : Nat) : Nat := m.getD i 0

/-- `CondensedTypeIDMap::GetIndex(type)`: the index assigned when walking the
merged set in order, i.e. the type's position in `index_to_type_map_`. -/
def GetIndex (m : List Nat) (ty : Nat) : Nat := m.indexOf ty

theorem mem_setInsert (s : List Nat) (x a : Nat) :
    a ∈ setInsert s x ↔ a = x ∨ a ∈ s := by
  induction s with
  | nil => simp [setInsert]
  | cons y ys ih =>
    by_cases h1 : x < y
    · simp [setInsert, h1]
    · by_cases h2 : x = y
      · subst h2
        simp [setInsert, h1]
      · simp [setInsert, h1, h2, ih]
        tauto

theorem pairwise_setInsert {s : List Nat} (h : s.Pairwise (fun a b => a < b))
    (x : Nat) : (setInsert s x).Pairwise (fun a b => a < b) := by
  induction s with
  | nil => simp [setInsert]
  | cons y ys ih =>
    rw [List.pairwise_cons] at h
    by_cases h1 : x < y
    · rw [setInsert, if_pos h1, List.pairwise_cons]
      refine ⟨?_, List.pairwise_cons.2 h⟩
      intro a ha
      rcases List.mem_cons.1 ha with rfl | ha2
      · exact h1
      · exact Nat.lt_trans h1 (h.1 a ha2)
    · by_cases h2 : x = y
      · rw [setInsert, if_neg h1, if_pos h2]
        exact List.pairwise_cons.2 h
      · rw [setInsert, if_neg h1, if_neg h2, List.pairwise_cons]
        refine ⟨?_, ih h.2⟩
        intro a ha
        rcases (mem_setInsert ys x a).1 ha with rfl | ha2
        · omega
        · exact h.1 a ha2

theorem pairwise_foldl_setInsert (l : List Nat) :
    ∀ acc : List Nat, acc.Pairwise (fun a b => a < b) →
      (l.foldl setInsert acc).Pairwise (fun a b => a < b) := by
  induction l with
  | nil => intro acc h; exact h
  | cons x xs ih =>
    intro acc h
    exact ih (setInsert acc x) (pairwise_setInsert h x)

theorem mem_foldl_setInsert (l : List Nat) :
    ∀ (acc : List Nat) (a : Nat),
      a ∈ l.foldl setInsert acc ↔ a ∈ acc ∨ a ∈ l := by
  induction l with
  | nil => intro acc a; simp
  | cons x xs ih =>
    intro acc a
    rw [List.foldl_cons, ih (setInsert acc x) a, mem_setInsert]
    simp
    tauto

theorem setOfList_mem (l : List Nat) (a : Nat) : a ∈ setOfList l ↔ a ∈ l := by
  rw [setOfList, mem_foldl_setInsert]
  simp

theorem makeFromEdgeTypes_pairwise (chunks : List (List Nat)) :
    (makeFromEdgeTypes chunks).Pairwise (fun a b => a < b) :=
  pairwise_foldl_setInsert _ [] List.Pairwise.nil

theorem makeFromEdgeTypes_mem (chunks : List (List Nat)) (a : Nat) :
    a ∈ makeFromEdgeTypes chunks ↔ a ∈ chunks.flatten := by
  rw [makeFromEdgeTypes, mem_foldl_setInsert]
  simp only [List.not_mem_nil, false_or, List.mem_flatten, List.mem_map]
  constructor
  · rintro ⟨s, ⟨c, hc, rfl⟩, ha⟩
    exact ⟨c, hc, (setOfList_mem c a).1 ha⟩
  · rintro ⟨c, hc, ha⟩
    exact ⟨setOfList c, ⟨c, hc, rfl⟩, (setOfList_mem c a).2 ha⟩

theorem sorted_ext_of_mem_iff :
    ∀ (l1 l2 : List Nat), l1.Pairwise (fun a b => a < b) →
      l2.Pairwise (fun a b => a < b) → (∀ x, x ∈ l1 ↔ x ∈ l2) → l1 = l2 := by
  intro l1
  induction l1 with
  | nil =>
    intro l2 _ _ hmem
    cases l2 with
    | nil => rfl
    | cons b l2' => exact absurd ((hmem b).2 (List.mem_cons_self b l2')) (by simp)
  | cons a l1' ih =>
    intro l2 h1 h2 hmem
    cases l2 with
    | nil => exact absurd ((hmem a).1 (List.mem_cons_self a l1')) (by simp)
    | cons b l2' =>
      have hab : a = b := by
        rcases List.mem_cons.1 ((hmem a).1 (List.mem_cons_self a l1')) with h | h
        · exact h
        · have hba : b < a := List.rel_of_pairwise_cons h2 h
          rcases List.mem_cons.1 ((hmem b).2 (List.mem_cons_self b l2')) with h' | h'
          · omega
          · have : a < b := List.rel_of_pairwise_cons h1 h'
            omega
      subst hab
      have htails : ∀ x, x ∈ l1' ↔ x ∈ l2' := by
        intro x
        constructor
        · intro hx
          have hax : a < x := List.rel_of_pairwise_cons h1 hx
          rcases List.mem_cons.1 ((hmem x).1 (List.mem_cons.2 (Or.inr hx))) with h | h
          · omega
          · exact h
        · intro hx
          have hax : a < x := List.rel_of_pairwise_cons h2 hx
          rcases List.mem_cons.1 ((hmem x).2 (List.mem_cons.2 (Or.inr hx))) with h | h
          · omega
          · exact h
      rw [ih l2' (List.pairwise_cons.1 h1).2 (List.pairwise_cons.1 h2).2 htails]

theorem makeFromEdgeTypes_nodup (chunks : List (List Nat)) :
    (makeFromEdgeTypes chunks).Nodup :=
  (makeFromEdgeTypes_pairwise chunks).imp Nat.ne_of_lt

/-- C7: `MakeFromEdgeTypes` yields a strictly ascending index-to-type list
whose members are exactly the edge types present in the graph; it depends
only on the multiset of edge types (not on how threads partitioned the
edges), and `GetIndex`/`GetType` are mutually inverse between the present
types and the contiguous range `[0, num_unique_types)`. -/
theorem C7_condensed_type_map (chunks chunks2 : List (List Nat))
    (h : chunks.flatten.Perm chunks2.flatten) :
    (makeFromEdgeTypes chunks).Pairwise (fun a b => a < b) ∧
    (∀ x, x ∈ makeFromEdgeTypes chunks ↔ x ∈ chunks.flatten) ∧
    makeFromEdgeTypes chunks2 = makeFromEdgeTypes chunks ∧
    (∀ i, i < (makeFromEdgeTypes chunks).length →
      GetIndex (makeFromEdgeTypes chunks) (GetType (makeFromEdgeTypes chunks) i) = i) ∧
    (∀ ty, ty ∈ chunks.flatten →
      GetType (makeFromEdgeTypes chunks) (GetIndex (makeFromEdgeTypes chunks) ty) = ty) := by
  refine ⟨makeFromEdgeTypes_pairwise chunks, makeFromEdgeTypes_mem chunks, ?_, ?_, ?_⟩
  · apply sorted_ext_of_mem_iff _ _ (makeFromEdgeTypes_pairwise chunks2)
      (makeFromEdgeTypes_pairwise chunks)
    intro x
    rw [makeFromEdgeTypes_mem, makeFromEdgeTypes_mem]
    exact Iff.symm (h.mem_iff)
  · intro i hi
    rw [GetType, GetIndex, getD_of_lt _ _ hi]
    exact List.indexOf_getElem (makeFromEdgeTypes_nodup chunks) i hi
  · intro ty hty
    have hmem : ty ∈ makeFromEdgeTypes chunks := (makeFromEdgeTypes_mem chunks ty).2 hty
    have hlt : (makeFromEdgeTypes chunks).indexOf ty < (makeFromEdgeTypes chunks).length :=
      List.indexOf_lt_length.2 hmem
    rw [GetType, GetIndex, getD_of_lt _ _ hlt]
    exact List.getElem_indexOf hlt

theorem C7_witness :
    ([[2, 1], [3, 1]].flatten.Perm [[1, 3], [1, 2]].flatten) ∧
    ((makeFromEdgeTypes [[2, 1], [3, 1]]).Pairwise (fun a b => a < b) ∧
    (∀ x, x ∈ makeFromEdgeTypes [[2, 1], [3, 1]] ↔ x ∈ [[2, 1], [3, 1]].flatten) ∧
    makeFromEdgeTypes [[1, 3], [1, 2]] = makeFromEdgeTypes [[2, 1], [3, 1]] ∧
    (∀ i, i < (makeFromEdgeTypes [[2, 1], [3, 1]]).length →
      GetIndex (makeFromEdgeTypes [[2, 1], [3, 1]])
        (GetType (makeFromEdgeTypes [[2, 1], [3, 1]]) i) = i) ∧
    (∀ ty, ty ∈ [[2, 1], [3, 1]].flatten →
      GetType (makeFromEdgeTypes [[2, 1], [3, 1]])
        (GetIndex (makeFromEdgeTypes [[2, 1], [3, 1]]) ty) = ty)) :=
  ⟨by decide, C7_condensed_type_map [[2, 1], [3, 1]] [[1, 3], [1, 2]] (by decide)⟩

/-! ## EdgeTypeAwareTopology (`CreatePerEdgeTypeAdjacencyIndex` / `edges(N, type)`)

`rk e` is the condensed type index of edge `e` (the composition
`GetIndex(GetTypeOfEdge(edge_property_index(e)))` of the source); `T` is
`num_unique_types`. `CreatePerEdgeTypeAdjacencyIndex` walks each node's
(type-sorted) edges with a cursor `index`: while the current edge's type is
past `GetType(index)`, slot `index` of the node's row receives the current
edge id and the cursor advances; after the last edge the remaining slots
receive the node's one-past-the-end edge id. `rowGo` is that per-node loop
(the `max` is inert on the type-sorted inputs the code asserts, where the
cursor never exceeds the current edge's type index). -/

def rowGo (rk : Nat → Nat) : List Nat → Nat → Nat → Nat → List Nat
  | [], index, T, eEnd => List.replicate (T - index) eEnd
  | e :: rest, index, T, eEnd =>
      List.replicate (rk e - index) e ++ rowGo rk rest (max index (rk e)) T eEnd

/-- Node `n`'s row of `per_type_adj_indices_`: slots `n*T .. n*T + T - 1`. -/
def typeRow (t : GraphTopology) (rk : Nat → Nat) (T n : Nat) : List Nat :=
  rowGo rk (edgesOf t n) 0 T (edgeEnd t n)

/-- `EdgeTypeAwareTopology::CreatePerEdgeTypeAdjacencyIndex`: the flat
`num_nodes * T` table of per-type adjacency indices. -/
def perTypeAdj (t : GraphTopology) (rk : Nat → Nat) (T : Nat) : List Nat :=
  (List.range (numNodes t)).flatMap (fun n => typeRow t rk T n)

/-- `e_beg` of `EdgeTypeAwareTopology::edges(N, edge_type)`:
`beg_idx == 0 ? 0 : per_type_adj_indices_[beg_idx - 1]`. -/
def typedBeg (table : List Nat) (T n i : Nat) : Nat :=
  if n * T + i = 0 then 0 else table.getD (n * T + i - 1) 0

/-- `EdgeTypeAwareTopology::edges(N, edge_type)` for the type of condensed
index `i`: the edge-id range `[e_beg, per_type_adj_indices_[N*T + i])`. -/
def typedEdges (table : List Nat) (T n i : Nat) : List Nat :=
  List.range' (typedBeg table T n i)
    (table.getD (n * T + i) 0 - typedBeg table T n i)

/-- The value a row slot ends up holding: the first listed edge whose type
index exceeds the slot's, else the one-past-the-end id. -/
def firstAbove (rk : Nat → Nat) : List Nat → Nat → Nat → Nat
  | [], _, d => d
  | e :: rest, i, d => if i < rk e then e else firstAbove rk rest i d

theorem getD_replicate {α : Type} (n : Nat) (a d : α) {i : Nat} (h : i < n) :
    (List.replicate n a).getD i d = a := by
  rw [List.getD_eq_getElem?_getD, List.getElem?_replicate]
  simp [h]

theorem rowGo_length (rk : Nat → Nat) (T eEnd : Nat) :
    ∀ (es : List Nat) (index : Nat), index ≤ T → (∀ e ∈ es, rk e ≤ T) →
      (rowGo rk es index T eEnd).length = T - index := by
  intro es
  induction es with
  | nil =>
    intro index h1 _
    simp [rowGo]
  | cons e rest ih =>
    intro index h1 h2
    rw [rowGo, List.length_append, List.length_replicate,
      ih (max index (rk e))
        (by
          have := h2 e (List.mem_cons_self e rest)
          omega)
        (fun x hx => h2 x (List.mem_cons.2 (Or.inr hx)))]
    have := h2 e (List.mem_cons_self e rest)
    omega

theorem rowGo_getD (rk : Nat → Nat) (T eEnd : Nat) :
    ∀ (es : List Nat) (index i : Nat), index ≤ i → i < T →
      (rowGo rk es index T eEnd).getD (i - index) 0 = firstAbove rk es i eEnd := by
  intro es
  induction es with
  | nil =>
    intro index i h1 h2
    rw [rowGo, firstAbove, getD_replicate _ _ _ (by omega)]
  | cons e rest ih =>
    intro index i h1 h2
    rw [rowGo, firstAbove]
    by_cases hc : i < rk e
    · rw [if_pos hc, List.getD_append _ _ _ _
        (by rw [List.length_replicate]; omega)]
      exact getD_replicate _ _ _ (by omega)
    · rw [if_neg hc, List.getD_append_right _ _ _ _
        (by rw [List.length_replicate]; omega)]
      rw [List.length_replicate]
      have harith : i - index - (rk e - index) = i - max index (rk e) := by omega
      rw [harith]
      exact ih (max index (rk e)) i (by omega) h2

theorem firstAbove_bounds (rk : Nat → Nat) (i : Nat) :
    ∀ (len b : Nat), b ≤ firstAbove rk (List.range' b len) i (b + len) ∧
      firstAbove rk (List.range' b len) i (b + len) ≤ b + len := by
  intro len
  induction len with
  | zero =>
    intro b
    exact ⟨Nat.le_refl _, Nat.le_refl _⟩
  | succ m ih =>
    intro b
    rw [List.range'_succ]
    rw [firstAbove]
    by_cases hc : i < rk b
    · rw [if_pos hc]
      omega
    · rw [if_neg hc]
      have harith : b + (m + 1) = (b + 1) + m := by omega
      rw [harith]
      have := ih (b + 1)
      omega

theorem firstAbove_mono (rk : Nat → Nat) {i j : Nat} (hij : i ≤ j) :
    ∀ (len b : Nat), firstAbove rk (List.range' b len) i (b + len) ≤
      firstAbove rk (List.range' b len) j (b + len) := by
  intro len
  induction len with
  | zero =>
    intro b
    exact Nat.le_refl _
  | succ m ih =>
    intro b
    rw [List.range'_succ, firstAbove, firstAbove]
    by_cases hc : i < rk b
    · rw [if_pos hc]
      by_cases hc2 : j < rk b
      · rw [if_pos hc2]
      · rw [if_neg hc2]
        have harith : b + (m + 1) = (b + 1) + m := by omega
        rw [harith]
        have := firstAbove_bounds rk j m (b + 1)
        omega
    · rw [if_neg hc, if_neg (by omega : ¬j < rk b)]
      have harith : b + (m + 1) = (b + 1) + m := by omega
      rw [harith]
      exact ih (b + 1)

theorem firstAbove_prefix (rk : Nat → Nat) (i : Nat) :
    ∀ (len b e : Nat), b ≤ e →
      e < firstAbove rk (List.range' b len) i (b + len) → rk e ≤ i := by
  intro len
  induction len with
  | zero =>
    intro b e h1 h2
    have h0 : firstAbove rk (List.range' b 0) i (b + 0) = b + 0 := rfl
    rw [h0] at h2
    omega
  | succ m ih =>
    intro b e h1 h2
    rw [List.range'_succ, firstAbove] at h2
    by_cases hc : i < rk b
    · rw [if_pos hc] at h2
      omega
    · rw [if_neg hc] at h2
      rcases Nat.eq_or_lt_of_le h1 with rfl | hlt
      · omega
      · have harith : b + (m + 1) = (b + 1) + m := by omega
        rw [harith] at h2
        exact ih (b + 1) e hlt h2

theorem firstAbove_mem_or_default (rk : Nat → Nat) (i d : Nat) :
    ∀ es : List Nat, (firstAbove rk es i d ∈ es ∧ i < rk (firstAbove rk es i d)) ∨
      firstAbove rk es i d = d := by
  intro es
  induction es with
  | nil => exact Or.inr rfl
  | cons e rest ih =>
    rw [firstAbove]
    by_cases hc : i < rk e
    · rw [if_pos hc]
      exact Or.inl ⟨List.mem_cons_self e rest, hc⟩
    · rw [if_neg hc]
      rcases ih with ⟨hm, hr⟩ | hd
      · exact Or.inl ⟨List.mem_cons.2 (Or.inr hm), hr⟩
      · exact Or.inr hd

theorem firstAbove_suffix (rk : Nat → Nat) (i len b : Nat)
    (hmono : ∀ e1 e2, b ≤ e1 → e1 ≤ e2 → e2 < b + len → rk e1 ≤ rk e2)
    (e : Nat) (h1 : firstAbove rk (List.range' b len) i (b + len) ≤ e)
    (h2 : e < b + len) : i < rk e := by
  rcases firstAbove_mem_or_default rk i (b + len) (List.range' b len) with ⟨hm, hr⟩ | hd
  · have hb := List.mem_range'_1.1 hm
    exact Nat.lt_of_lt_of_le hr (hmono _ e hb.1 h1 h2)
  · omega

theorem firstAbove_top (rk : Nat → Nat) (T d : Nat) (hT : 0 < T) :
    ∀ es : List Nat, (∀ e ∈ es, rk e < T) → firstAbove rk es (T - 1) d = d := by
  intro es
  induction es with
  | nil => intro _; rfl
  | cons e rest ih =>
    intro h
    rw [firstAbove, if_neg (by have := h e (List.mem_cons_self e rest); omega)]
    exact ih (fun x hx => h x (List.mem_cons.2 (Or.inr hx)))

theorem flatMap_getD_of_length {f : Nat → List Nat} {T : Nat} :
    ∀ (l : List Nat), (∀ m ∈ l, (f m).length = T) →
      ∀ j i, j < l.length → i < T →
        (l.flatMap f).getD (j * T + i) 0 = (f (l.getD j 0)).getD i 0 := by
  intro l
  induction l with
  | nil =>
    intro _ j i hj _
    simp at hj
  | cons m rest ih =>
    intro hlen j i hj hi
    rw [List.flatMap_cons]
    cases j with
    | zero =>
      have hm : (f m).length = T := hlen m (List.mem_cons_self m rest)
      rw [Nat.zero_mul, Nat.zero_add,
        List.getD_append _ _ _ _ (by rw [hm]; omega)]
      rfl
    | succ k =>
      have hm : (f m).length = T := hlen m (List.mem_cons_self m rest)
      rw [List.getD_append_right _ _ _ _ (by rw [hm, Nat.succ_mul]; omega), hm]
      have harith : (k + 1) * T + i - T = k * T + i := by
        rw [Nat.succ_mul]
        omega
      rw [harith]
      exact ih (fun x hx => hlen x (List.mem_cons.2 (Or.inr hx))) k i
        (by simpa using hj) hi

/-- C8: over a type-sorted `EdgeShuffleTopology` (hypothesis `hsorted`, the
`kSortedByEdgeType` state `MakeFrom` asserts) whose edge types all appear in
the condensed map (`hrk`), every typed range `edges(n, t)` of
`EdgeTypeAwareTopology` contains only edges of `n` whose resolved type index
is `t`, and concatenating the ranges over all `T` type indices in order
reproduces `edges(n)` exactly: the typed ranges partition `edges(n)`. -/
theorem C8_typed_ranges (t : GraphTopology) (rk : Nat → Nat) (T : Nat)
    (hv : validCSR t = true) (hT : 0 < T)
    (hrk : ∀ e ∈ List.range (numEdges t), rk e < T)
    (hsorted : ∀ n' ∈ List.range (numNodes t), ∀ e1 ∈ edgesOf t n',
      ∀ e2 ∈ edgesOf t n', e1 ≤ e2 → rk e1 ≤ rk e2)
    {n : Nat} (hn : n < numNodes t) :
    (∀ i, i < T → ∀ e ∈ typedEdges (perTypeAdj t rk T) T n i,
      e ∈ edgesOf t n ∧ rk e = i) ∧
    (List.range T).flatMap (fun i => typedEdges (perTypeAdj t rk T) T n i) =
      edgesOf t n := by
  have hrkOf : ∀ n', n' < numNodes t → ∀ e ∈ edgesOf t n', rk e < T := by
    intro n' hn' e he
    have hd : degree t n' = edgeEnd t n' - edgeBegin t n' := rfl
    obtain ⟨hb1, hb2⟩ :=
      List.mem_range'_1.1 (he : e ∈ List.range' (edgeBegin t n') (degree t n'))
    have hEnd := edgeEnd_le_numEdges hv hn'
    have hbe' := validCSR_begin_le_end hv hn'
    exact hrk e (List.mem_range.2 (by omega))
  have hrow : ∀ m ∈ List.range (numNodes t), (typeRow t rk T m).length = T := by
    intro m hm
    rw [typeRow, rowGo_length rk T (edgeEnd t m) (edgesOf t m) 0 (Nat.zero_le T)
      (fun e he => Nat.le_of_lt (hrkOf m (List.mem_range.1 hm) e he))]
    omega
  have htab : ∀ n' i', n' < numNodes t → i' < T →
      (perTypeAdj t rk T).getD (n' * T + i') 0 =
        firstAbove rk (edgesOf t n') i' (edgeEnd t n') := by
    intro n' i' hn' hi'
    rw [perTypeAdj]
    rw [flatMap_getD_of_length (List.range (numNodes t)) hrow n' i'
      (by simpa using hn') hi']
    have hr : (List.range (numNodes t)).getD n' 0 = n' := by
      rw [getD_of_lt _ _
        (show n' < (List.range (numNodes t)).length by simpa using hn')]
      simp
    rw [hr]
    show (typeRow t rk T n').getD i' 0 =
      firstAbove rk (edgesOf t n') i' (edgeEnd t n')
    rw [typeRow]
    have h2 := rowGo_getD rk T (edgeEnd t n') (edgesOf t n') 0 i' (Nat.zero_le i') hi'
    rw [Nat.sub_zero] at h2
    exact h2
  have hbe : edgeBegin t n ≤ edgeEnd t n := validCSR_begin_le_end hv hn
  have hblen : edgeBegin t n + degree t n = edgeEnd t n := by
    have hd : degree t n = edgeEnd t n - edgeBegin t n := rfl
    omega
  have hBbounds : ∀ i, edgeBegin t n ≤ firstAbove rk (edgesOf t n) i (edgeEnd t n) ∧
      firstAbove rk (edgesOf t n) i (edgeEnd t n) ≤ edgeEnd t n := by
    intro i
    have h := firstAbove_bounds rk i (degree t n) (edgeBegin t n)
    rw [hblen] at h
    exact h
  have hBmono : ∀ i j, i ≤ j → firstAbove rk (edgesOf t n) i (edgeEnd t n) ≤
      firstAbove rk (edgesOf t n) j (edgeEnd t n) := by
    intro i j hij
    have h := firstAbove_mono rk hij (degree t n) (edgeBegin t n)
    rw [hblen] at h
    exact h
  have hBprefix : ∀ i e, edgeBegin t n ≤ e →
      e < firstAbove rk (edgesOf t n) i (edgeEnd t n) → rk e ≤ i := by
    intro i e a1 a2
    refine firstAbove_prefix rk i (degree t n) (edgeBegin t n) e a1 ?_
    rw [hblen]
    exact a2
  have hmono' : ∀ e1 e2, edgeBegin t n ≤ e1 → e1 ≤ e2 →
      e2 < edgeBegin t n + degree t n → rk e1 ≤ rk e2 := by
    intro e1 e2 a1 a2 a3
    refine hsorted n (List.mem_range.2 hn) e1 ?_ e2 ?_ a2
    · exact List.mem_range'_1.2 ⟨a1, by omega⟩
    · exact List.mem_range'_1.2 ⟨Nat.le_trans a1 a2, a3⟩
  have hBsuffix : ∀ i e, firstAbove rk (edgesOf t n) i (edgeEnd t n) ≤ e →
      e < edgeEnd t n → i < rk e := by
    intro i e h1 h2
    exact firstAbove_suffix rk i (degree t n) (edgeBegin t n) hmono' e
      (by rw [hblen]; exact h1) (by omega)
  have hbeg : ∀ i, i < T → typedBeg (perTypeAdj t rk T) T n i =
      (if i = 0 then edgeBegin t n
       else firstAbove rk (edgesOf t n) (i - 1) (edgeEnd t n)) := by
    intro i hi
    by_cases hi0 : i = 0
    · subst hi0
      rw [if_pos rfl, typedBeg]
      by_cases hn0 : n = 0
      · subst hn0
        rw [if_pos (by simp)]
        simp [edgeBegin]
      · have hn1 : 0 < n := Nat.pos_of_ne_zero hn0
        have hnT : 0 < n * T := Nat.mul_pos hn1 hT
        rw [if_neg (by omega : ¬n * T + 0 = 0)]
        have hTle : T ≤ n * T := Nat.le_mul_of_pos_left T hn1
        have harith : n * T + 0 - 1 = (n - 1) * T + (T - 1) := by
          rw [Nat.sub_one_mul]
          omega
        rw [harith, htab (n - 1) (T - 1) (by omega) (by omega)]
        rw [firstAbove_top rk T (edgeEnd t (n - 1)) hT (edgesOf t (n - 1))
          (hrkOf (n - 1) (by omega))]
        rw [edgeEnd_eq_edgeBegin_succ]
        have hsucc : n - 1 + 1 = n := by omega
        rw [hsucc]
    · rw [if_neg hi0, typedBeg, if_neg (by omega : ¬n * T + i = 0)]
      have harith : n * T + i - 1 = n * T + (i - 1) := by omega
      rw [harith, htab n (i - 1) hn (by omega)]
  constructor
  · intro i hi e he
    rw [typedEdges, hbeg i hi, htab n i hn hi] at he
    obtain ⟨h1, h2⟩ := List.mem_range'_1.1 he
    have hpb : edgeBegin t n ≤ (if i = 0 then edgeBegin t n
        else firstAbove rk (edgesOf t n) (i - 1) (edgeEnd t n)) := by
      by_cases hi0 : i = 0
      · rw [if_pos hi0]
      · rw [if_neg hi0]
        exact (hBbounds (i - 1)).1
    have hpB : (if i = 0 then edgeBegin t n
        else firstAbove rk (edgesOf t n) (i - 1) (edgeEnd t n)) ≤
        firstAbove rk (edgesOf t n) i (edgeEnd t n) := by
      by_cases hi0 : i = 0
      · rw [if_pos hi0]
        exact (hBbounds i).1
      · rw [if_neg hi0]
        exact hBmono (i - 1) i (by omega)
    have heB : e < firstAbove rk (edgesOf t n) i (edgeEnd t n) := by omega
    have hbe' : edgeBegin t n ≤ e := by omega
    have heE : e < edgeEnd t n := by
      have := (hBbounds i).2
      omega
    refine ⟨List.mem_range'_1.2 ⟨hbe', by omega⟩, ?_⟩
    have hup : rk e ≤ i := hBprefix i e hbe' heB
    have hlow : i ≤ rk e := by
      by_cases hi0 : i = 0
      · omega
      · have hlt : i - 1 < rk e := by
          apply hBsuffix (i - 1) e ?_ heE
          rw [if_neg hi0] at h1
          exact h1
        omega
    omega
  · have htile : ∀ k, k ≤ T →
        (List.range k).flatMap (fun i => typedEdges (perTypeAdj t rk T) T n i) =
          List.range' (edgeBegin t n)
            ((if k = 0 then edgeBegin t n
              else firstAbove rk (edgesOf t n) (k - 1) (edgeEnd t n)) -
              edgeBegin t n) := by
      intro k
      induction k with
      | zero =>
        intro _
        simp
      | succ k ih =>
        intro hk1
        have hk : k < T := hk1
        rw [List.range_succ, List.flatMap_append, ih (Nat.le_of_lt hk),
          List.flatMap_cons, List.flatMap_nil, List.append_nil,
          typedEdges, hbeg k hk, htab n k hn hk]
        rw [if_neg (Nat.succ_ne_zero k), Nat.succ_sub_one]
        obtain ⟨p, hpdef⟩ : ∃ p, (if k = 0 then edgeBegin t n
            else firstAbove rk (edgesOf t n) (k - 1) (edgeEnd t n)) = p := ⟨_, rfl⟩
        rw [hpdef]
        have hpb : edgeBegin t n ≤ p := by
          rw [← hpdef]
          by_cases hk0 : k = 0
          · rw [if_pos hk0]
          · rw [if_neg hk0]
            exact (hBbounds (k - 1)).1
        have hpB : p ≤ firstAbove rk (edgesOf t n) k (edgeEnd t n) := by
          rw [← hpdef]
          by_cases hk0 : k = 0
          · rw [if_pos hk0]
            exact (hBbounds k).1
          · rw [if_neg hk0]
            exact hBmono (k - 1) k (by omega)
        have happ := List.range'_append (edgeBegin t n) (p - edgeBegin t n)
          (firstAbove rk (edgesOf t n) k (edgeEnd t n) - p) 1
        have h1 : edgeBegin t n + 1 * (p - edgeBegin t n) = p := by omega
        rw [h1] at happ
        rw [happ]
        congr 1
        omega
    have hfin := htile T (Nat.le_refl T)
    rw [hfin, if_neg (by omega : ¬T = 0)]
    rw [firstAbove_top rk T (edgeEnd t n) hT (edgesOf t n) (hrkOf n hn)]
    rfl

/-- A concrete type-index assignment on the spec-example graph: edge 0 has
type index 0, all later edges type index 1. -/
def exRk : Nat → Nat := fun e => if e < 1 then 0 else 1

theorem C8_witness :
    validCSR exTopo = true ∧
    ((∀ i, i < 2 → ∀ e ∈ typedEdges (perTypeAdj exTopo exRk 2) 2 0 i,
        e ∈ edgesOf exTopo 0 ∧ exRk e = i) ∧
      (List.range 2).flatMap (fun i => typedEdges (perTypeAdj exTopo exRk 2) 2 0 i) =
        edgesOf exTopo 0) :=
  ⟨by decide, C8_typed_ranges exTopo exRk 2 (by decide) (by decide) (by decide)
    (by decide) (by decide)⟩

end Katana
